import Mathlib

/-!
# Verification of the FACTORY.AI Knowledge Indexing & Retrieval Engine

Shallow embedding of the `KnowledgeBaseService` (src/unnamed/part_001) in Lean 4,
together with theorems settling the frozen claims C1..C10 about it.

Modelling conventions, used consistently below:

* JavaScript strings are modelled by Lean `String` / `List Char`; `s.length` counts
  characters (JS counts UTF-16 units — identical on the BMP inputs used here).
* `better-sqlite3` tables are modelled as ordinary lists of typed rows; a SQL
  `SELECT ... WHERE id = ?` / `UPDATE` / `INSERT` pair is modelled as an upsert on
  the row list.  The FTS5 virtual table `documents_fts` is modelled as a plain
  row store keyed by document id holding its `content` column: the special
  `INSERT INTO documents_fts(documents_fts, ...) VALUES('delete', ...)` command
  followed by a re-insert is modelled as replacing the row, and
  `UPDATE documents_fts SET content = content || ?` as appending to it.
* External collaborators (OpenAI chat, the embedding pipeline, the filesystem)
  are passed in as explicit oracle functions; `CryptoJS.SHA256` is modelled as a
  deterministic injective content-address (collision resistance idealised as
  injectivity).
* Asynchronous code is sequentialised: within `indexDirectory` a batch's files
  are processed in list order (the claims under check only concern the final
  counters, which are order-insensitive).
-/

namespace FactoryKB

/-! ## JavaScript string primitives -/

/-- JS whitespace as matched by `\s` and removed by `String.prototype.trim`
(ASCII fragment; the Unicode space classes never occur in the inputs here). -/
def isJsWs (c : Char) : Bool :=
  c = ' ' || c = '\t' || c = '\n' || c = '\r' || c = '\x0b' || c = '\x0c'

/-- `!s.trim()` in JS: the string is empty or all whitespace. -/
def blank (l : List Char) : Bool := l.all isJsWs

/-- Length of the whitespace run at the head of the list. -/
def wsRun : List Char → Nat
  | [] => 0
  | c :: rest => if isJsWs c then wsRun rest + 1 else 0

/-- Largest index `k < bound` with `l[k] = '\n'`, if any.  Used to model the
greedy-with-backtracking match of `\s*\n` after an initial newline. -/
def lastNlBefore : List Char → Nat → Option Nat
  | _, 0 => none
  | [], _ + 1 => none
  | c :: rest, n + 1 =>
    match lastNlBefore rest n with
    | some k => some (k + 1)
    | none => if c = '\n' then some 0 else none

/-- Length of the match of the paragraph separator regex `\n\s*\n` at the head
of the list, if it matches there (JS regex semantics: `\s*` is greedy but
backtracks so that the final character is a newline). -/
def matchSep : List Char → Option Nat
  | '\n' :: rest =>
    match lastNlBefore rest (wsRun rest) with
    | some k => some (k + 2)
    | none => none
  | _ => none

theorem lastNlBefore_lt {l : List Char} {b k : Nat} (h : lastNlBefore l b = some k) :
    k < b := by
  induction l generalizing b k with
  | nil => cases b <;> simp [lastNlBefore] at h
  | cons c rest ih =>
    cases b with
    | zero => simp [lastNlBefore] at h
    | succ b =>
      simp only [lastNlBefore] at h
      cases hk : lastNlBefore rest b with
      | some k' =>
        rw [hk] at h
        simp at h
        have := ih hk
        omega
      | none =>
        rw [hk] at h
        split at h <;> simp_all
        omega

theorem wsRun_le_length (l : List Char) : wsRun l ≤ l.length := by
  induction l with
  | nil => simp [wsRun]
  | cons c rest ih =>
    simp only [wsRun, List.length_cons]
    split <;> omega

theorem matchSep_le_length {l : List Char} {n : Nat} (h : matchSep l = some n) :
    n ≤ l.length := by
  match l with
  | [] => simp [matchSep] at h
  | c :: rest =>
    by_cases hc : c = '\n'
    · subst hc
      simp only [matchSep] at h
      cases hk : lastNlBefore rest (wsRun rest) with
      | none => rw [hk] at h; exact absurd h (by simp)
      | some k =>
        rw [hk] at h
        simp at h
        have h1 := lastNlBefore_lt hk
        have h2 := wsRun_le_length rest
        simp only [List.length_cons]
        omega
    · rw [show matchSep (c :: rest) = none by
        unfold matchSep
        split <;> simp_all] at h
      exact absurd h (by simp)

theorem matchSep_ge_two {l : List Char} {n : Nat} (h : matchSep l = some n) : 2 ≤ n := by
  match l with
  | [] => simp [matchSep] at h
  | c :: rest =>
    by_cases hc : c = '\n'
    · subst hc
      simp only [matchSep] at h
      cases hk : lastNlBefore rest (wsRun rest) with
      | none => rw [hk] at h; exact absurd h (by simp)
      | some k => rw [hk] at h; simp at h; omega
    · rw [show matchSep (c :: rest) = none by
        unfold matchSep
        split <;> simp_all] at h
      exact absurd h (by simp)

/-- `text.split(/\n\s*\n/)` on character lists: `cur` is the reversed
accumulator of the current piece.  Structural recursion on `fuel` (always
called with `fuel > l.length`, see `splitParas`) keeps the definition
kernel-computable. -/
def splitAux : Nat → List Char → List Char → List (List Char)
  | 0, cur, _ => [cur.reverse]
  | _ + 1, cur, [] => [cur.reverse]
  | fuel + 1, cur, c :: rest =>
    match matchSep (c :: rest) with
    | some n => cur.reverse :: splitAux fuel [] ((c :: rest).drop n)
    | none => splitAux fuel (c :: cur) rest

/-- `content.split(/\n\s*\n/)` — the paragraph list of the chunker. -/
def splitParas (l : List Char) : List (List Char) := splitAux (l.length + 1) [] l

theorem splitAux_ne_nil (fuel : Nat) (cur l : List Char) : splitAux fuel cur l ≠ [] := by
  induction fuel generalizing cur l with
  | zero => simp [splitAux]
  | succ fuel ih =>
    match l with
    | [] => simp [splitAux]
    | c :: rest =>
      simp only [splitAux]
      cases hm : matchSep (c :: rest) with
      | some n => simp
      | none => exact ih (c :: cur) rest

/-- With sufficient fuel, the fuel argument is irrelevant. -/
theorem splitAux_fuel_irrel (fuel fuel' : Nat) (cur l : List Char)
    (h : l.length < fuel) (h' : l.length < fuel') :
    splitAux fuel cur l = splitAux fuel' cur l := by
  induction fuel generalizing fuel' cur l with
  | zero => omega
  | succ fuel ih =>
    match fuel', l with
    | fuel' + 1, [] => simp [splitAux]
    | fuel' + 1, c :: rest =>
      simp only [splitAux]
      cases hm : matchSep (c :: rest) with
      | some n =>
        have h2 := matchSep_ge_two hm
        have h3 := matchSep_le_length hm
        simp only [List.length_cons] at h h' h3
        refine congrArg _ (ih fuel' [] _ ?_ ?_) <;>
          simp only [List.length_drop, List.length_cons] <;> omega
      | none =>
        simp only [List.length_cons] at h h'
        exact ih fuel' (c :: cur) rest (by omega) (by omega)

/-- Total length of the pieces plus two characters per separator is at most the
length of the input: every separator matched by `\n\s*\n` is at least two
characters long. -/
theorem splitAux_length_bound (fuel : Nat) (cur l : List Char) (hf : l.length < fuel) :
    ((splitAux fuel cur l).map List.length).sum + 2 * ((splitAux fuel cur l).length - 1)
      ≤ cur.length + l.length := by
  induction fuel generalizing cur l with
  | zero => omega
  | succ fuel ih =>
    match l with
    | [] => simp [splitAux]
    | c :: rest =>
      simp only [splitAux]
      cases hm : matchSep (c :: rest) with
      | some n =>
        have h2 := matchSep_ge_two hm
        have h3 : n ≤ rest.length + 1 := by
          have := matchSep_le_length hm
          simpa using this
        have hne := splitAux_ne_nil fuel [] ((c :: rest).drop n)
        have hlen : 1 ≤ (splitAux fuel [] ((c :: rest).drop n)).length :=
          Nat.one_le_iff_ne_zero.mpr (by simpa using hne)
        simp only [List.map_cons, List.sum_cons, List.length_cons, List.length_reverse]
        have hd : ((c :: rest).drop n).length = rest.length + 1 - n := by
          simp [List.length_drop]
        have hfd : ((c :: rest).drop n).length < fuel := by
          simp only [List.length_cons] at hf
          omega
        have ih' := ih [] ((c :: rest).drop n) hfd
        rw [hd] at ih'
        simp only [List.length_nil, Nat.zero_add] at ih'
        simp only [List.length_cons] at hf ⊢
        omega
      | none =>
        have : rest.length < fuel := by
          simp only [List.length_cons] at hf
          omega
        have ih' := ih (c :: cur) rest this
        simp only [List.length_cons] at ih' ⊢
        omega

theorem splitParas_length_bound (l : List Char) :
    ((splitParas l).map List.length).sum + 2 * ((splitParas l).length - 1)
      ≤ l.length := by
  simpa [splitParas] using splitAux_length_bound (l.length + 1) [] l (by omega)

/-! ## Identifiers

`CryptoJS.SHA256(s).toString()` is an external library call.  It is modelled as
a deterministic injective content-address: determinism and collision-freedom
are the two properties of SHA-256 the service relies on (stable ids for the
same path / concept name, distinct ids for distinct inputs). -/

/-- Escape one character so that the result never contains `'_'`: SHA-256 hex
digests contain only `[0-9a-f]`, and the service builds relationship-id
preimages by joining digests with `'_'`, relying on digests being
underscore-free for the joins to be unambiguous.  The model keeps that
property. -/
def shaEscChar (c : Char) : List Char :=
  if c = '_' then ['/', 'u'] else if c = '/' then ['/', '/'] else [c]

def shaEscape (l : List Char) : List Char := (l.map shaEscChar).flatten

/-- Decoder for `shaEscape` (only used in proofs, to witness injectivity). -/
def shaDecode : List Char → List Char
  | [] => []
  | c :: rest =>
    if c = '/' then
      match rest with
      | [] => [c]
      | c' :: rest' => (if c' = 'u' then '_' else c') :: shaDecode rest'
    else c :: shaDecode rest

theorem shaDecode_cons_ne {c : Char} (h : ¬c = '/') (l : List Char) :
    shaDecode (c :: l) = c :: shaDecode l := by
  cases l <;> simp [shaDecode, h]

theorem shaDecode_shaEscape (l : List Char) : shaDecode (shaEscape l) = l := by
  induction l with
  | nil => rfl
  | cons c rest ih =>
    show shaDecode (shaEscChar c ++ shaEscape rest) = c :: rest
    by_cases h1 : c = '_'
    · subst h1
      simp only [shaEscChar, if_pos rfl]
      show shaDecode ('/' :: 'u' :: shaEscape rest) = '_' :: rest
      simp [shaDecode, ih]
    · by_cases h2 : c = '/'
      · subst h2
        rw [show shaEscChar '/' = ['/', '/'] from rfl]
        show shaDecode ('/' :: '/' :: shaEscape rest) = '/' :: rest
        simp [shaDecode, ih]
      · simp only [shaEscChar, if_neg h1, if_neg h2]
        show shaDecode (c :: shaEscape rest) = c :: rest
        rw [shaDecode_cons_ne h2, ih]

theorem shaEscape_injective : Function.Injective shaEscape := by
  intro a b h
  have := congrArg shaDecode h
  rwa [shaDecode_shaEscape, shaDecode_shaEscape] at this

theorem shaEscape_no_underscore (l : List Char) : '_' ∉ shaEscape l := by
  intro hmem
  rw [shaEscape, List.mem_flatten] at hmem
  obtain ⟨tok, htok, hc⟩ := hmem
  rw [List.mem_map] at htok
  obtain ⟨c, _, rfl⟩ := htok
  unfold shaEscChar at hc
  split at hc
  · simp at hc
  · split at hc
    · simp at hc
    · rename_i h1 _
      simp only [List.mem_singleton] at hc
      exact h1 hc.symm

/-- Model of `CryptoJS.SHA256(s).toString()`: a deterministic, injective
content-address whose output never contains `'_'` (as with real hex digests).
Determinism, collision-freedom (idealised as injectivity) and
underscore-freedom are the three properties of the digest the service's id
scheme relies on. -/
def sha256 (s : String) : String := ⟨"sha256(".data ++ shaEscape s.data ++ [')']⟩

theorem sha256_injective : Function.Injective sha256 := by
  intro a b h
  have hdata : "sha256(".data ++ shaEscape a.data ++ [')'] =
      "sha256(".data ++ shaEscape b.data ++ [')'] := congrArg String.data h
  have h2 : shaEscape a.data = shaEscape b.data := by
    have h1 : "sha256(".data ++ shaEscape a.data = "sha256(".data ++ shaEscape b.data :=
      List.append_cancel_right hdata
    exact List.append_cancel_left h1
  have := shaEscape_injective h2
  exact String.ext this

theorem sha256_no_underscore (s : String) : '_' ∉ (sha256 s).data := by
  intro hmem
  simp only [sha256] at hmem
  rw [List.mem_append, List.mem_append] at hmem
  rcases hmem with (h | h) | h
  · revert h
    decide
  · exact shaEscape_no_underscore _ h
  · revert h
    decide

/-! ### Decimal printing of chunk indices

`` `chunk_${metadata.id}_${chunkIndex}` `` converts the index to its decimal
string.  A fuel-based printer keeps it kernel-computable, with a decode
round-trip witnessing injectivity. -/

def natReprAux : Nat → Nat → List Char
  | 0, _ => []
  | fuel + 1, n =>
    if n < 10 then [Nat.digitChar n]
    else natReprAux fuel (n / 10) ++ [Nat.digitChar (n % 10)]

/-- The decimal representation of a natural number (= JS number-to-string for
the non-negative integers used as chunk indices). -/
def natRepr (n : Nat) : String := ⟨natReprAux (n + 1) n⟩

def decodeDigits (l : List Char) : Nat := l.foldl (fun a c => a * 10 + (c.toNat - 48)) 0

theorem decodeDigits_append_digit (l : List Char) (c : Char) :
    decodeDigits (l ++ [c]) = decodeDigits l * 10 + (c.toNat - 48) := by
  simp [decodeDigits, List.foldl_append]

theorem digitChar_toNat {d : Nat} (h : d < 10) : (Nat.digitChar d).toNat = 48 + d := by
  interval_cases d <;> decide

theorem decodeDigits_natReprAux : ∀ (fuel n : Nat), n < fuel →
    decodeDigits (natReprAux fuel n) = n := by
  intro fuel
  induction fuel with
  | zero => omega
  | succ fuel ih =>
    intro n hn
    by_cases h10 : n < 10
    · simp only [natReprAux, if_pos h10, decodeDigits, List.foldl_cons, List.foldl_nil]
      rw [show (Nat.digitChar n).toNat = 48 + n from digitChar_toNat h10]
      omega
    · have hdiv : n / 10 < fuel := by omega
      simp only [natReprAux, if_neg h10]
      rw [decodeDigits_append_digit, ih _ hdiv,
        show (Nat.digitChar (n % 10)).toNat = 48 + n % 10 from
          digitChar_toNat (Nat.mod_lt _ (by omega))]
      omega

theorem natRepr_injective : Function.Injective natRepr := by
  intro a b h
  have hdata : natReprAux (a + 1) a = natReprAux (b + 1) b := congrArg String.data h
  have ha := decodeDigits_natReprAux (a + 1) a (by omega)
  have hb := decodeDigits_natReprAux (b + 1) b (by omega)
  rw [hdata, hb] at ha
  omega

/-- `chunk_${metadata.id}_${chunkIndex}` (chunkDocument, line 564). -/
def chunkId (docId : String) (idx : Nat) : String :=
  "chunk_" ++ docId ++ "_" ++ natRepr idx

theorem chunkId_inj_idx {docId : String} {i j : Nat} (h : chunkId docId i = chunkId docId j) :
    i = j := by
  unfold chunkId at h
  have hdata := congrArg String.data h
  simp only [String.data_append] at hdata
  have := List.append_cancel_left hdata
  exact natRepr_injective (String.ext this)

/-- Unique decomposition at an underscore separating two underscore-free
parts. -/
theorem splitUnd : ∀ {u v x y : List Char}, '_' ∉ u → '_' ∉ v →
    u ++ '_' :: x = v ++ '_' :: y → u = v ∧ x = y := by
  intro u
  induction u with
  | nil =>
    intro v x y _ hv h
    cases v with
    | nil => simpa using h
    | cons d vs =>
      simp only [List.nil_append, List.cons_append, List.cons.injEq] at h
      exact absurd (show '_' ∈ d :: vs from by
        rw [← h.1]; exact List.mem_cons_self _ _) hv
  | cons c us ih =>
    intro v x y hu hv h
    cases v with
    | nil =>
      simp only [List.cons_append, List.nil_append, List.cons.injEq] at h
      exact absurd (show '_' ∈ c :: us from by
        rw [h.1]; exact List.mem_cons_self _ _) hu
    | cons d vs =>
      simp only [List.cons_append, List.cons.injEq] at h
      obtain ⟨rfl, h2⟩ := h
      have := ih (fun hm => hu (List.mem_cons_of_mem _ hm))
        (fun hm => hv (List.mem_cons_of_mem _ hm)) h2
      exact ⟨by rw [this.1], this.2⟩

/-! ## The chunker (`KnowledgeBaseService.chunkDocument`, lines 549-600)

Configuration: `chunkSize` (chars, default 1000) and `chunkOverlap` (words,
default 200) from the service constructor. -/

/-- In-memory `DocumentChunk` object.  `metaTitle`/`metaType` are the two
fields of its `metadata` object (`{ title: metadata.title, type: metadata.type }`);
`embedding` is the transient field set by `indexDocument` when
`generateEmbeddings` is on. -/
structure DocumentChunk where
  id : String
  documentId : String
  content : String
  index : Nat
  embedding : Option (List ℚ)
  metaTitle : String
  metaType : String
  deriving Repr, DecidableEq

/-- `currentChunk.split(' ')` then
`words.slice(Math.max(0, words.length - overlap)).join(' ')` (lines 575-576). -/
def overlapWords (overlap : Nat) (cur : List Char) : List Char :=
  let words := cur.splitOn ' '
  List.intercalate [' '] (words.drop (words.length - overlap))

/-- The chunk object pushed by `chunkDocument`. -/
def mkChunk (docId title dtype : String) (cur : List Char) (idx : Nat) : DocumentChunk :=
  { id := chunkId docId idx, documentId := docId, content := ⟨cur⟩, index := idx,
    embedding := none, metaTitle := title, metaType := dtype }

/-- Loop state of `chunkDocument`: emitted chunks, `currentChunk`, `chunkIndex`. -/
structure ChunkAcc where
  chunks : List DocumentChunk
  cur : List Char
  idx : Nat
  deriving Repr, DecidableEq

/-- One iteration of the `for (const paragraph of paragraphs)` loop
(lines 557-583). -/
def chunkStep (S O : Nat) (docId title dtype : String) (acc : ChunkAcc) (p : List Char) :
    ChunkAcc :=
  if blank p then acc
  else if S < acc.cur.length + p.length ∧ 0 < acc.cur.length then
    { chunks := acc.chunks ++ [mkChunk docId title dtype acc.cur acc.idx]
      cur := overlapWords O acc.cur ++ ' ' :: p
      idx := acc.idx + 1 }
  else
    { acc with cur := if acc.cur.isEmpty then p else acc.cur ++ '\n' :: '\n' :: p }

/-- The final flush of `chunkDocument` (lines 586-597): push the last buffer
as a chunk if it is non-blank. -/
def chunkFinish (docId title dtype : String) (r : ChunkAcc) : List DocumentChunk :=
  if blank r.cur then r.chunks
  else r.chunks ++ [mkChunk docId title dtype r.cur r.idx]

/-- `KnowledgeBaseService.chunkDocument(content, metadata)` with chunk size `S`
(chars) and overlap `O` (words).  `docId`, `title`, `dtype` are
`metadata.id`, `metadata.title`, `metadata.type`. -/
def chunkDocument (content : String) (docId title dtype : String) (S O : Nat) :
    List DocumentChunk :=
  chunkFinish docId title dtype
    ((splitParas content.data).foldl (chunkStep S O docId title dtype) ⟨[], [], 0⟩)

/-! ## The store

`better-sqlite3` tables as lists of typed rows.  Unmodelled scalar columns
(sizes, dates, tags, summaries, key points, page/word counts) are carried by
no claim and are omitted from the row types. -/

/-- A row of the `documents` table. -/
structure DocRow where
  id : String
  title : String
  path : String
  type : String
  deriving Repr, DecidableEq

/-- A row of the `document_chunks` table (`id, document_id, content, index_num,
metadata`).  `metadataJson` is the TEXT column holding
`JSON.stringify(chunk.metadata)`. -/
structure ChunkRow where
  id : String
  documentId : String
  content : String
  indexNum : Nat
  metadataJson : String
  deriving Repr, DecidableEq

/-- A row of the `concepts` table. -/
structure ConceptRow where
  id : String
  name : String
  type : String
  description : Option String
  frequency : Nat
  deriving Repr, DecidableEq

/-- A row of the `relationships` table (`weight REAL`, exact rationals here). -/
structure RelRow where
  id : String
  sourceId : String
  sourceType : String
  targetId : String
  targetType : String
  relationshipType : String
  weight : ℚ
  deriving Repr, DecidableEq

/-- The persistent store: the four tables plus the `content` column of the
`documents_fts` FTS5 table, keyed by document id (the fts rowid is the
document's rowid; `documents.id` is the primary key, so keying by id is
equivalent). -/
structure KBState where
  documents : List DocRow
  chunks : List ChunkRow
  ftsContent : List (String × String)
  concepts : List ConceptRow
  relationships : List RelRow
  deriving Repr, DecidableEq

def emptyState : KBState := ⟨[], [], [], [], []⟩

/-- `JSON.stringify` escaping for the characters that can occur in our inputs. -/
def jsonEscapeChar (c : Char) : String :=
  if c = '"' then "\\\""
  else if c = '\\' then "\\\\"
  else if c = '\n' then "\\n"
  else if c = '\t' then "\\t"
  else if c = '\r' then "\\r"
  else String.singleton c

def jsonEscape (s : String) : String := String.join (s.data.map jsonEscapeChar)

/-- `JSON.stringify({ title, type })` — the only shape of chunk metadata the
service ever persists (`chunkDocument` lines 568-571, `saveDocumentChunk`
lines 814/828).  Note: it has no `embedding` key. -/
def chunkMetaJson (title dtype : String) : String :=
  "\x7b\"title\":\"" ++ jsonEscape title ++ "\",\"type\":\"" ++ jsonEscape dtype ++ "\"\x7d"

/-- Replace the FTS row of `docId` (the `'delete'` command followed by the
re-insert in `saveDocumentMetadata`, lines 777-788: the new `content` column
is the empty string). -/
def ftsSet (docId val : String) (fts : List (String × String)) : List (String × String) :=
  fts.filter (fun e => e.1 ≠ docId) ++ [(docId, val)]

/-- `UPDATE documents_fts SET content = content || ? WHERE rowid = (SELECT
rowid FROM documents WHERE id = ?)` (lines 833-836): appends when the document
row exists, affects nothing otherwise. -/
def ftsAppend (docId s : String) (fts : List (String × String)) : List (String × String) :=
  fts.map (fun e => if e.1 = docId then (e.1, e.2 ++ s) else e)

def ftsLookup (docId : String) (fts : List (String × String)) : Option String :=
  (fts.find? (fun e => e.1 = docId)).map (fun e => e.2)

/-- `KnowledgeBaseService.saveDocumentMetadata` (lines 712-793): upsert by id
into `documents`, then replace the FTS row with `content = ''`. -/
def saveDocumentMetadata (row : DocRow) (st : KBState) : KBState :=
  { st with
    documents :=
      if st.documents.any (fun r => r.id = row.id) then
        st.documents.map (fun r => if r.id = row.id then row else r)
      else
        st.documents ++ [row],
    ftsContent := ftsSet row.id "" st.ftsContent }

/-- The row `saveDocumentChunk` writes for a chunk object: the in-memory
`embedding` field is *not* persisted — only `JSON.stringify(chunk.metadata)`,
which is `{title, type}`. -/
def chunkRowOf (c : DocumentChunk) : ChunkRow :=
  { id := c.id, documentId := c.documentId, content := c.content,
    indexNum := c.index, metadataJson := chunkMetaJson c.metaTitle c.metaType }

/-- `KnowledgeBaseService.saveDocumentChunk` (lines 796-841): upsert by id into
`document_chunks`, then append `chunk.content + ' '` to the document's FTS
`content` column. -/
def saveDocumentChunk (c : DocumentChunk) (st : KBState) : KBState :=
  { st with
    chunks :=
      if st.chunks.any (fun r => r.id = c.id) then
        st.chunks.map (fun r => if r.id = c.id then chunkRowOf c else r)
      else
        st.chunks ++ [chunkRowOf c],
    ftsContent := ftsAppend c.documentId (c.content ++ " ") st.ftsContent }

/-- Number of chunk rows belonging to a document. -/
def chunkCount (documentId : String) (st : KBState) : Nat :=
  (st.chunks.filter (fun r => r.documentId = documentId)).length

/-- `KnowledgeBaseService.getDocumentContent` (lines 1760-1773):
`SELECT content FROM document_chunks WHERE document_id = ? ORDER BY index_num`,
then `.map(chunk => chunk.content).join('\n\n')`. -/
def getDocumentContent (st : KBState) (documentId : String) : String :=
  String.intercalate "\n\n"
    (((st.chunks.filter (fun r => r.documentId = documentId)).insertionSort
      (fun a b => a.indexNum ≤ b.indexNum)).map (fun r => r.content))

/-- `KnowledgeBaseService.deleteDocument` (lines 1776-1833), without an
external vector store.  The whole body runs inside `BEGIN TRANSACTION` /
`COMMIT` with `ROLLBACK` on error: `dbFail` injects a database failure inside
the transaction, in which case the rollback leaves the store unchanged and a
`DatabaseError` propagates.  On success: delete the document's relationships
(`source_id = ? AND source_type = 'DOCUMENT'`), its chunk rows, its document
row (whose FTS row goes with it via the `documents_ad` trigger), and return
`changes > 0` for the `documents` delete. -/
def deleteDocument (dbFail : Bool) (documentId : String) (st : KBState) :
    Except String Bool × KBState :=
  if dbFail then
    (Except.error "DatabaseError", st)
  else
    (Except.ok (decide (0 < (st.documents.filter (fun r => r.id = documentId)).length)),
      { documents := st.documents.filter (fun r => r.id ≠ documentId),
        chunks := st.chunks.filter (fun r => r.documentId ≠ documentId),
        ftsContent := st.ftsContent.filter (fun e => e.1 ≠ documentId),
        concepts := st.concepts,
        relationships := st.relationships.filter
          (fun r => ¬(r.sourceId = documentId ∧ r.sourceType = "DOCUMENT")) })

/-! ## Concept & graph builder (`extractConcepts` / `processConceptsChunk`,
lines 1058-1197) -/

/-- One element of the JSON array the text-completion collaborator is asked to
return: `{name, type, description?}`.  The JS falsiness tests
`!concept.name` / `!concept.type` are the empty-string tests here. -/
structure ConceptIn where
  name : String
  type : String
  description : Option String
  deriving Repr, DecidableEq

/-- `toLowerCase` / `toUpperCase` / `endsWith` over the char list — the same
ASCII mapping as the runtime's, written so the kernel can evaluate them. -/
def jsToLower (s : String) : String := ⟨s.data.map Char.toLower⟩

def jsToUpper (s : String) : String := ⟨s.data.map Char.toUpper⟩

def strEndsWith (s suffix : String) : Bool := suffix.data.isSuffixOf s.data

/-- `SHA256(concept.name.toLowerCase())` (line 1114). -/
def conceptIdOf (name : String) : String := sha256 (jsToLower name)

/-- `SHA256(documentId + '_' + conceptId + '_CONTAINS')` (line 1136). -/
def containsRelId (documentId conceptId : String) : String :=
  sha256 (documentId ++ "_" ++ conceptId ++ "_CONTAINS")

/-- `SHA256(concept1Id + '_' + concept2Id + '_RELATED')` (line 1160) — note the
preimage depends on the *order* of the two concepts in the parsed array. -/
def relatedRelId (concept1Id concept2Id : String) : String :=
  sha256 (concept1Id ++ "_" ++ concept2Id ++ "_RELATED")

theorem relId_decomp (a b : String) (s : String) :
    (a ++ "_" ++ b ++ s).data = a.data ++ '_' :: (b.data ++ s.data) := by
  simp [String.data_append]

theorem containsRelId_inj {d k d' k' : String}
    (hd : '_' ∉ d.data) (hk : '_' ∉ k.data) (hd' : '_' ∉ d'.data) (hk' : '_' ∉ k'.data)
    (h : containsRelId d k = containsRelId d' k') : d = d' ∧ k = k' := by
  have h1 := sha256_injective h
  have h2 := congrArg String.data h1
  rw [relId_decomp, relId_decomp] at h2
  obtain ⟨e1, e2⟩ := splitUnd hd hd' h2
  have h3 : k.data ++ '_' :: "CONTAINS".data = k'.data ++ '_' :: "CONTAINS".data := by
    simpa [show "_CONTAINS".data = '_' :: "CONTAINS".data from rfl] using e2
  obtain ⟨e3, _⟩ := splitUnd hk hk' h3
  exact ⟨String.ext e1, String.ext e3⟩

theorem relatedRelId_inj {d k d' k' : String}
    (hd : '_' ∉ d.data) (hk : '_' ∉ k.data) (hd' : '_' ∉ d'.data) (hk' : '_' ∉ k'.data)
    (h : relatedRelId d k = relatedRelId d' k') : d = d' ∧ k = k' := by
  have h1 := sha256_injective h
  have h2 := congrArg String.data h1
  rw [relId_decomp, relId_decomp] at h2
  obtain ⟨e1, e2⟩ := splitUnd hd hd' h2
  have h3 : k.data ++ '_' :: "RELATED".data = k'.data ++ '_' :: "RELATED".data := by
    simpa [show "_RELATED".data = '_' :: "RELATED".data from rfl] using e2
  obtain ⟨e3, _⟩ := splitUnd hk hk' h3
  exact ⟨String.ext e1, String.ext e3⟩

theorem containsRelId_ne_relatedRelId (a b x y : String) :
    containsRelId a b ≠ relatedRelId x y := by
  intro h
  have h1 := sha256_injective h
  have h2 := congrArg String.data h1
  have hl : ((a ++ "_" ++ b ++ "_CONTAINS").data).getLast? = some 'S' := by
    simp only [String.data_append]
    rw [show (['_', 'C', 'O', 'N', 'T', 'A', 'I', 'N', 'S'] : List Char) =
      ['_', 'C', 'O', 'N', 'T', 'A', 'I', 'N'] ++ ['S'] from rfl, ← List.append_assoc]
    exact List.getLast?_concat _
  have hr : ((x ++ "_" ++ y ++ "_RELATED").data).getLast? = some 'D' := by
    simp only [String.data_append]
    rw [show (['_', 'R', 'E', 'L', 'A', 'T', 'E', 'D'] : List Char) =
      ['_', 'R', 'E', 'L', 'A', 'T', 'E'] ++ ['D'] from rfl, ← List.append_assoc]
    exact List.getLast?_concat _
  rw [h2, hr] at hl
  exact absurd hl (by decide)

/-- `INSERT OR REPLACE INTO relationships` (lines 1138-1147): SQLite REPLACE
removes any row conflicting on the primary key `id` or on the
`UNIQUE(source_id, target_id, relationship_type)` constraint, then inserts. -/
def insertOrReplaceRel (row : RelRow) (rels : List RelRow) : List RelRow :=
  rels.filter (fun r => ¬(r.id = row.id ∨
    (r.sourceId = row.sourceId ∧ r.targetId = row.targetId ∧
      r.relationshipType = row.relationshipType))) ++ [row]

/-- First loop of `processConceptsChunk` (lines 1111-1148): per concept,
bump/insert its `frequency` and upsert the Document→Concept `CONTAINS` edge
with `weight = existingConcept ? existingConcept.frequency + 1 : 1`. -/
def conceptStep (documentId : String) (st : KBState) (c : ConceptIn) : KBState :=
  if c.name = "" ∨ c.type = "" then st
  else
    match st.concepts.find? (fun r => r.id = conceptIdOf c.name) with
    | some ex =>
      { st with
        concepts := st.concepts.map
          (fun r => if r.id = conceptIdOf c.name then { r with frequency := r.frequency + 1 }
            else r),
        relationships := insertOrReplaceRel
          { id := containsRelId documentId (conceptIdOf c.name), sourceId := documentId,
            sourceType := "DOCUMENT", targetId := conceptIdOf c.name,
            targetType := jsToUpper c.type, relationshipType := "CONTAINS",
            weight := (ex.frequency + 1 : ℚ) } st.relationships }
    | none =>
      { st with
        concepts := st.concepts ++
          [{ id := conceptIdOf c.name, name := c.name, type := jsToUpper c.type,
             description := c.description, frequency := 1 }],
        relationships := insertOrReplaceRel
          { id := containsRelId documentId (conceptIdOf c.name), sourceId := documentId,
            sourceType := "DOCUMENT", targetId := conceptIdOf c.name,
            targetType := jsToUpper c.type, relationshipType := "CONTAINS",
            weight := 1 } st.relationships }

/-- The ordered pairs `(conceptsData[i], conceptsData[j])` for `i < j` visited
by the second (double) loop of `processConceptsChunk` (lines 1151-1184). -/
def pairList : List ConceptIn → List (ConceptIn × ConceptIn)
  | [] => []
  | c :: rest => rest.map (fun c2 => (c, c2)) ++ pairList rest

/-- Body of the pair loop: bump an existing `RELATED` edge (found by its
order-dependent id) by `0.5`, else insert it at weight `1.0`. -/
def pairStep (st : KBState) (p : ConceptIn × ConceptIn) : KBState :=
  if p.1.name = "" ∨ p.2.name = "" then st
  else if st.relationships.any
      (fun r => r.id = relatedRelId (conceptIdOf p.1.name) (conceptIdOf p.2.name)) then
    { st with relationships := (st.relationships.map
        (fun r => if r.id = relatedRelId (conceptIdOf p.1.name) (conceptIdOf p.2.name)
          then { r with weight := r.weight + 1/2 } else r)) }
  else
    { st with relationships := (st.relationships ++
        [{ id := relatedRelId (conceptIdOf p.1.name) (conceptIdOf p.2.name),
           sourceId := conceptIdOf p.1.name, sourceType := jsToUpper p.1.type,
           targetId := conceptIdOf p.2.name, targetType := jsToUpper p.2.type,
           relationshipType := "RELATED", weight := 1 }]) }

/-- The committed transaction body of `processConceptsChunk` for a parsed JSON
array: the concept loop followed by the pair loop (lines 1109-1187). -/
def conceptPass (cs : List ConceptIn) (documentId : String) (st : KBState) : KBState :=
  (pairList cs).foldl pairStep (cs.foldl (conceptStep documentId) st)

/-- Outcome of `sendChatMessage` + `JSON.parse(response)` for one slice:
`parsed cs` for a JSON array, `notArray` for other valid JSON, `fail` for a
collaborator error or a JSON parse error. -/
inductive ConceptResponse
  | parsed (cs : List ConceptIn)
  | notArray
  | fail

/-- `processConceptsChunk` for one slice.  On `fail` no transaction has been
opened, and the `this.db.exec('ROLLBACK')` in the catch handlers itself throws
(`cannot rollback - no transaction is active`), so the call propagates an
exception with the store unchanged — modelled as `Except.error`. -/
def processConceptsChunk (resp : ConceptResponse) (documentId : String) (st : KBState) :
    Except Unit KBState :=
  match resp with
  | .parsed cs => .ok (conceptPass cs documentId st)
  | .notArray => .ok st
  | .fail => .error ()

/-- `splitTextIntoChunks` loop state (lines 1027-1056). -/
structure SliceAcc where
  chunks : List String
  cur : List Char
  deriving Repr, DecidableEq

/-- One iteration of the `splitTextIntoChunks` paragraph loop. -/
def sliceStep (chunkSize overlap : Nat) (acc : SliceAcc) (p : List Char) : SliceAcc :=
  if blank p then acc
  else if chunkSize < acc.cur.length + p.length ∧ 0 < acc.cur.length then
    { chunks := acc.chunks ++ [⟨acc.cur⟩]
      cur := if 0 < overlap then overlapWords overlap acc.cur ++ ' ' :: p else p }
  else
    { acc with cur := if acc.cur.isEmpty then p else acc.cur ++ '\n' :: '\n' :: p }

/-- `KnowledgeBaseService.splitTextIntoChunks` (lines 1027-1056). -/
def splitTextIntoChunks (text : String) (chunkSize overlap : Nat) : List String :=
  let r := (splitParas text.data).foldl (sliceStep chunkSize overlap) ⟨[], []⟩
  if blank r.cur then r.chunks else r.chunks ++ [⟨r.cur⟩]

/-- The slice loop of `extractConcepts`: a thrown `processConceptsChunk`
(JSON-parse failure) is caught by `extractConcepts`' own catch, which only
logs — so the remaining slices are skipped and the state so far is kept. -/
def conceptLoop (oracle : String → ConceptResponse) (documentId : String) :
    List String → KBState → KBState
  | [], st => st
  | s :: rest, st =>
    match processConceptsChunk (oracle s) documentId st with
    | .ok st' => conceptLoop oracle documentId rest st'
    | .error _ => st

/-- `KnowledgeBaseService.extractConcepts` (lines 1058-1078): slice long
documents at 10000 chars (no overlap), run `processConceptsChunk` per slice,
swallow all failures (never throws). -/
def extractConcepts (oracle : String → ConceptResponse) (content documentId : String)
    (st : KBState) : KBState :=
  let slices :=
    if 10000 < content.length then splitTextIntoChunks content 10000 0 else [content]
  conceptLoop oracle documentId slices st

/-! ## Cosine similarity (`cosineSimilarity`, lines 1652-1672) -/

/-- The `dotProduct` accumulator of the loop. -/
def dotProduct (v w : List ℚ) : ℚ := (List.zipWith (· * ·) v w).sum

/-- The `normA`/`normB` accumulators: the sum of squares. -/
def normSq (v : List ℚ) : ℚ := (v.map (fun x => x * x)).sum

/-- `KnowledgeBaseService.cosineSimilarity` over exact rationals: `none` models
the thrown `Error('Vectors must have the same length')`; `0` when either norm
accumulator is zero; else `dot / (sqrt(normA) * sqrt(normB))`. -/
noncomputable def cosineSimilarity (vecA vecB : List ℚ) : Option ℝ :=
  if vecA.length ≠ vecB.length then none
  else if normSq vecA = 0 ∨ normSq vecB = 0 then some 0
  else some ((dotProduct vecA vecB : ℝ) /
    (Real.sqrt (normSq vecA) * Real.sqrt (normSq vecB)))

/-! ## Semantic search, in-process fallback (`semanticSearch` else-branch,
lines 1584-1645) -/

/-- Substring test: `hay LIKE '%needle%'`. -/
def hasSub : List Char → List Char → Bool
  | needle, [] => needle.isEmpty
  | needle, c :: rest => List.take needle.length (c :: rest) == needle || hasSub needle rest

/-- The pattern of the scan filter `WHERE dc.metadata LIKE '%"embedding":%'`
(line 1593). -/
def embPattern : List Char := ('"' :: "embedding".data) ++ ['"', ':']

/-- A search result row (the snippet construction of `extractSnippet` is
carried by no claim and is omitted). -/
structure SearchResult where
  documentId : String
  title : String
  path : String
  type : String
  relevance : ℝ

/-- The `JOIN documents` + `LIKE '%"embedding":%'` scan of the fallback: chunk
rows whose metadata column contains the pattern, paired with their document
row. -/
def semanticScan (st : KBState) : List (ChunkRow × DocRow) :=
  (st.chunks.filterMap (fun dc =>
      (st.documents.find? (fun d => d.id = dc.documentId)).map (fun d => (dc, d))))
    |>.filter (fun pr => hasSub embPattern pr.1.metadataJson.data)

/-- The in-process fallback of `KnowledgeBaseService.semanticSearch` (no
external vector service configured).  `parseEmb` models
`JSON.parse(chunk.metadata).embedding` on the metadata column; a missing or
non-array embedding, a parse failure, or a length mismatch inside
`cosineSimilarity` (caught per chunk) all yield similarity 0.  Results are
sorted by descending similarity and sliced `[offset, offset + limit)`. -/
noncomputable def semanticSearch (parseEmb : String → Option (List ℚ))
    (queryEmbedding : List ℚ) (limit offset : Nat) (types : Option (List String))
    (st : KBState) : List SearchResult :=
  let scanned := semanticScan st
  let filtered : List (ChunkRow × DocRow) := match types with
    | some ts => if ts ≠ [] then scanned.filter (fun pr => ts.contains pr.2.type) else scanned
    | none => scanned
  let scored : List ((ChunkRow × DocRow) × ℝ) :=
    filtered.map (fun pr =>
      let sim : ℝ := match parseEmb pr.1.metadataJson with
        | some emb => (cosineSimilarity queryEmbedding emb).getD 0
        | none => 0
      (pr, sim))
  let sorted := scored.insertionSort (fun a b => b.2 ≤ a.2)
  ((sorted.drop offset).take limit).map (fun pr =>
    { documentId := pr.1.1.documentId, title := pr.1.2.title, path := pr.1.2.path,
      type := pr.1.2.type, relevance := pr.2 })

/-! ## The orchestrator (`indexDocument` / `indexDirectory`,
lines 624-709 and 1200-1285) -/

/-- The filesystem, as the engine observes it: directory listings and readable
file contents (`none` content makes `processFile` raise
`FileProcessingError`). -/
structure FileSystem where
  dirs : List (String × List String)
  fileContents : List (String × Option String)

def readFile (fs : FileSystem) (p : String) : Option String :=
  match fs.fileContents.find? (fun e => e.1 = p) with
  | some e => e.2
  | none => none

def listDir (fs : FileSystem) (d : String) : Option (List String) :=
  (fs.dirs.find? (fun e => e.1 = d)).map (fun e => e.2)

/-- `basename(filePath)`. -/
def basename (p : String) : String := ⟨(p.data.splitOn '/').getLastD []⟩

/-- `detectFileType` by the extension map (lines 321-355); the buffer-sniffing
branch for unknown extensions performs file I/O and is modelled as `unknown`. -/
def detectFileType (p0 : String) : String :=
  if strEndsWith (jsToLower p0) ".pdf" then "pdf"
  else if strEndsWith (jsToLower p0) ".xlsx" || strEndsWith (jsToLower p0) ".xls" then "excel"
  else if strEndsWith (jsToLower p0) ".csv" then "csv"
  else if strEndsWith (jsToLower p0) ".docx" || strEndsWith (jsToLower p0) ".doc" then "word"
  else if strEndsWith (jsToLower p0) ".txt" then "text"
  else if strEndsWith (jsToLower p0) ".md" || strEndsWith (jsToLower p0) ".markdown" then
    "markdown"
  else "unknown"

/-- Service configuration relevant to the claims (constructor options,
defaults `chunkSize = 1000` chars and `chunkOverlap = 200` words). -/
structure KBConfig where
  chunkSize : Nat := 1000
  chunkOverlap : Nat := 200

/-- The external collaborators of one indexing run: the embedding pipeline
(`none` = `EmbeddingError`, caught per chunk) and the concept-extraction chat
call, per slice. -/
structure Collaborators where
  embed : String → Option (List ℚ)
  concepts : String → ConceptResponse

/-- The per-chunk embedding step of `indexDocument` (lines 670-693): with
`generateEmbeddings` on, try the embedding pipeline and set the in-memory
`chunk.embedding` field (an `EmbeddingError` is caught and logged, leaving the
field unset); without a vector store nothing else happens.  All other fields
are untouched. -/
def embedChunk (generateEmbeddings : Bool) (co : Collaborators) (c : DocumentChunk) :
    DocumentChunk :=
  if generateEmbeddings then { c with embedding := co.embed c.content } else c

/-- `KnowledgeBaseService.indexDocument(filePath, options)` (lines 624-709),
without an external vector store; summaries and key points (optional
enrichment filling columns no claim touches) are not modelled.  Steps:
`processFile` (fails iff the file is unreadable), `documentId =
SHA256(filePath)`, `saveDocumentMetadata`, `chunkDocument`, per-chunk optional
embedding + `saveDocumentChunk` (the embedding is set on the in-memory object
only), `extractConcepts`, return the id. -/
def indexDocument (cfg : KBConfig) (fs : FileSystem) (co : Collaborators)
    (generateEmbeddings : Bool) (filePath : String) (st : KBState) :
    Except String (String × KBState) :=
  match readFile fs filePath with
  | none => .error ("FileProcessingError: " ++ filePath)
  | some content =>
    let documentId := sha256 filePath
    let dtype := detectFileType filePath
    let title := basename filePath
    let st1 := saveDocumentMetadata
      { id := documentId, title := title, path := filePath, type := dtype } st
    let chunks := chunkDocument content documentId title dtype cfg.chunkSize cfg.chunkOverlap
    let st2 := chunks.foldl (fun s c =>
      saveDocumentChunk (embedChunk generateEmbeddings co c) s) st1
    let st3 := extractConcepts co.concepts content documentId st2
    .ok (documentId, st3)

/-- `IndexingProgress` (dates omitted). -/
structure IndexingProgress where
  total : Nat
  processed : Nat
  failed : Nat
  status : String
  error : Option String
  deriving Repr, DecidableEq

/-- `KnowledgeBaseService.indexDirectory(dirPath, options)` (lines 1200-1285).
Throws (`Except.error`) iff the root directory does not exist; enumerates
files, filters by `fileTypes`, caps at `maxFiles`, then processes every file,
counting one `processed` or one `failed` per file — a file's failure is caught
inside its batch and never aborts the run.  The concurrent batches of width
`maxConcurrentProcessing` are sequentialised file-by-file: the claims under
check concern only the final counters, which do not depend on completion
order. -/
def indexDirectory (cfg : KBConfig) (fs : FileSystem) (co : Collaborators)
    (generateEmbeddings : Bool) (fileTypes : Option (List String))
    (maxFiles : Option Nat) (dirPath : String) (st : KBState) :
    Except String (IndexingProgress × KBState) :=
  match listDir fs dirPath with
  | none => .error ("KnowledgeBaseError: Directory " ++ dirPath ++ " does not exist")
  | some files =>
    let filesToProcess := match fileTypes with
      | some ts =>
        if ts ≠ [] then files.filter (fun f => ts.contains (detectFileType f)) else files
      | none => files
    let filesToProcess := match maxFiles with
      | some m => if 0 < m then filesToProcess.take m else filesToProcess
      | none => filesToProcess
    let init : IndexingProgress :=
      { total := filesToProcess.length, processed := 0, failed := 0,
        status := "indexing", error := none }
    let r := filesToProcess.foldl (fun (acc : IndexingProgress × KBState) f =>
      match indexDocument cfg fs co generateEmbeddings f acc.2 with
      | .ok x => ({ acc.1 with processed := acc.1.processed + 1 }, x.2)
      | .error _ => ({ acc.1 with failed := acc.1.failed + 1 }, acc.2)) (init, st)
    .ok ({ r.1 with status := "completed" }, r.2)

/-- `l` begins with `p`. -/
def hasHead (p l : List Char) : Prop := l.take p.length = p

/-- The seed of the buffer that follows an emitted chunk: its last `O`
space-separated words, then the `' '` of `overlapWords + ' ' + paragraph`. -/
def overlapSeed (O : Nat) (a : DocumentChunk) : List Char :=
  overlapWords O a.content.data ++ [' ']

/-! ## Lemmas about the chunker -/

theorem hasHead_append {p l : List Char} (m : List Char) (h : hasHead p l) :
    hasHead p (l ++ m) := by
  have hlen : p.length ≤ l.length := by
    have := congrArg List.length h
    simp only [List.length_take] at this
    omega
  unfold hasHead at *
  rw [List.take_append_of_le_length hlen]
  exact h

theorem hasHead_self_append (p m : List Char) : hasHead p (p ++ m) := by
  unfold hasHead
  exact List.take_left p m

theorem overlapSeed_ne_nil (O : Nat) (a : DocumentChunk) : overlapSeed O a ≠ [] := by
  simp [overlapSeed]

theorem blank_append (l m : List Char) : blank (l ++ m) = (blank l && blank m) := by
  simp [blank, List.all_append]

/-- Through the paragraph loop, the emitted chunks are chained by the overlap
property and the running buffer extends the seed of the last emitted chunk. -/
theorem chunkFold_chain (S O : Nat) (docId title dtype : String) :
    ∀ (ps : List (List Char)) (acc : ChunkAcc),
      acc.chunks.Chain' (fun a b => hasHead (overlapSeed O a) b.content.data) →
      (∀ a ∈ acc.chunks.getLast?, hasHead (overlapSeed O a) acc.cur) →
      (ps.foldl (chunkStep S O docId title dtype) acc).chunks.Chain'
          (fun a b => hasHead (overlapSeed O a) b.content.data) ∧
        ∀ a ∈ (ps.foldl (chunkStep S O docId title dtype) acc).chunks.getLast?,
          hasHead (overlapSeed O a) (ps.foldl (chunkStep S O docId title dtype) acc).cur := by
  intro ps
  induction ps with
  | nil => exact fun acc h1 h2 => ⟨h1, h2⟩
  | cons p rest ih =>
    intro acc h1 h2
    rw [List.foldl_cons]
    apply ih
    all_goals {
      unfold chunkStep
      split
      · first
        | exact h1
        | exact h2
      · split
        · rename_i hcond
          first
          | -- Chain' for the emit branch
            (refine List.chain'_append.mpr ⟨h1, List.chain'_singleton _, ?_⟩
             intro a ha y hy
             simp only [List.head?_cons, Option.mem_def, Option.some.injEq] at hy
             subst hy
             exact h2 a ha)
          | -- seed property for the emit branch
            (intro a ha
             rw [List.getLast?_concat] at ha
             simp only [Option.mem_def, Option.some.injEq] at ha
             subst ha
             show hasHead (overlapSeed O (mkChunk docId title dtype acc.cur acc.idx))
               (overlapWords O acc.cur ++ ' ' :: p)
             rw [show (overlapWords O acc.cur ++ ' ' :: p) =
               (overlapWords O (mkChunk docId title dtype acc.cur acc.idx).content.data
                 ++ [' ']) ++ p from by simp [mkChunk]]
             exact hasHead_self_append _ _)
        · first
          | exact h1
          | -- seed property for the append branch
            (intro a ha
             have hseed := h2 a ha
             by_cases hemp : acc.cur.isEmpty
             · exfalso
               have hnil : acc.cur = [] := by
                 cases hc : acc.cur
                 · rfl
                 · rw [hc] at hemp
                   simp [List.isEmpty] at hemp
               rw [hnil] at hseed
               unfold hasHead at hseed
               simp only [List.take_nil] at hseed
               exact overlapSeed_ne_nil O a hseed.symm
             · simp only [if_neg hemp]
               exact hasHead_append _ hseed)
    }

/-- The overlap property of `chunkDocument`'s output: every chunk after the
first begins with the last `O` words of its predecessor followed by a space. -/
theorem chunkDocument_chain (content : String) (docId title dtype : String) (S O : Nat) :
    (chunkDocument content docId title dtype S O).Chain'
      (fun a b => hasHead (overlapSeed O a) b.content.data) := by
  unfold chunkDocument chunkFinish
  have h := chunkFold_chain S O docId title dtype (splitParas content.data) ⟨[], [], 0⟩
    (by simp) (by simp)
  split
  · exact h.1
  · refine List.chain'_append.mpr ⟨h.1, List.chain'_singleton _, ?_⟩
    intro a ha y hy
    simp only [List.head?_cons, Option.mem_def, Option.some.injEq] at hy
    subst hy
    exact h.2 a ha

/-- The per-paragraph step preserves the bookkeeping invariant: `chunkIndex`
equals the number of emitted chunks, chunk indices are `0, 1, 2, ...`, and
every chunk carries the expected id, document id and metadata. -/
theorem chunkStep_meta (S O : Nat) (docId title dtype : String) (acc : ChunkAcc)
    (p : List Char)
    (h1 : acc.idx = acc.chunks.length)
    (h2 : acc.chunks.map (fun c => c.index) = List.range acc.chunks.length)
    (h3 : ∀ c ∈ acc.chunks, c.id = chunkId docId c.index ∧ c.documentId = docId ∧
      c.embedding = none ∧ c.metaTitle = title ∧ c.metaType = dtype) :
    (chunkStep S O docId title dtype acc p).idx =
        (chunkStep S O docId title dtype acc p).chunks.length ∧
      (chunkStep S O docId title dtype acc p).chunks.map (fun c => c.index) =
        List.range (chunkStep S O docId title dtype acc p).chunks.length ∧
      ∀ c ∈ (chunkStep S O docId title dtype acc p).chunks,
        c.id = chunkId docId c.index ∧ c.documentId = docId ∧
        c.embedding = none ∧ c.metaTitle = title ∧ c.metaType = dtype := by
  unfold chunkStep
  split
  · exact ⟨h1, h2, h3⟩
  · split
    · refine ⟨?_, ?_, ?_⟩
      · simp [h1]
      · simp only [List.map_append, List.length_append, List.map_cons, List.map_nil,
          List.length_cons, List.length_nil]
        rw [h2]
        rw [show (mkChunk docId title dtype acc.cur acc.idx).index = acc.idx from rfl]
        rw [h1, List.range_succ]
      · intro c hc
        rw [List.mem_append] at hc
        rcases hc with hc | hc
        · exact h3 c hc
        · simp only [List.mem_singleton] at hc
          subst hc
          exact ⟨rfl, rfl, rfl, rfl, rfl⟩
    · exact ⟨h1, h2, h3⟩

/-- The bookkeeping invariant holds through the whole paragraph loop. -/
theorem chunkFold_meta (S O : Nat) (docId title dtype : String) :
    ∀ (ps : List (List Char)) (acc : ChunkAcc),
      acc.idx = acc.chunks.length →
      acc.chunks.map (fun c => c.index) = List.range acc.chunks.length →
      (∀ c ∈ acc.chunks, c.id = chunkId docId c.index ∧ c.documentId = docId ∧
        c.embedding = none ∧ c.metaTitle = title ∧ c.metaType = dtype) →
      (ps.foldl (chunkStep S O docId title dtype) acc).idx =
          (ps.foldl (chunkStep S O docId title dtype) acc).chunks.length ∧
        (ps.foldl (chunkStep S O docId title dtype) acc).chunks.map (fun c => c.index) =
          List.range (ps.foldl (chunkStep S O docId title dtype) acc).chunks.length ∧
        ∀ c ∈ (ps.foldl (chunkStep S O docId title dtype) acc).chunks,
          c.id = chunkId docId c.index ∧ c.documentId = docId ∧
          c.embedding = none ∧ c.metaTitle = title ∧ c.metaType = dtype := by
  intro ps
  induction ps with
  | nil => exact fun acc h1 h2 h3 => ⟨h1, h2, h3⟩
  | cons p rest ih =>
    intro acc h1 h2 h3
    rw [List.foldl_cons]
    obtain ⟨g1, g2, g3⟩ := chunkStep_meta S O docId title dtype acc p h1 h2 h3
    exact ih _ g1 g2 g3

/-- `chunkDocument` output: indices are `0, 1, ..., n-1` in order, and every
chunk carries the expected id, document id and metadata fields. -/
theorem chunkDocument_meta (content : String) (docId title dtype : String) (S O : Nat) :
    (chunkDocument content docId title dtype S O).map (fun c => c.index) =
        List.range (chunkDocument content docId title dtype S O).length ∧
      ∀ c ∈ chunkDocument content docId title dtype S O,
        c.id = chunkId docId c.index ∧ c.documentId = docId ∧
        c.embedding = none ∧ c.metaTitle = title ∧ c.metaType = dtype := by
  unfold chunkDocument chunkFinish
  have h := chunkFold_meta S O docId title dtype (splitParas content.data) ⟨[], [], 0⟩
    (by simp) (by simp) (by simp)
  split
  · exact ⟨h.2.1, h.2.2⟩
  · constructor
    · simp only [List.map_append, List.length_append, List.map_cons, List.map_nil,
        List.length_cons, List.length_nil]
      rw [h.2.1, h.1, List.range_succ]
      simp [mkChunk]
    · intro c hc
      rw [List.mem_append] at hc
      rcases hc with hc | hc
      · exact h.2.2 c hc
      · simp only [List.mem_singleton] at hc
        subst hc
        exact ⟨rfl, rfl, rfl, rfl, rfl⟩

/-- The ids of the chunks of one document are pairwise distinct. -/
theorem chunkDocument_ids_nodup (content : String) (docId title dtype : String) (S O : Nat) :
    ((chunkDocument content docId title dtype S O).map (fun c => c.id)).Nodup := by
  obtain ⟨hidx, hmem⟩ := chunkDocument_meta content docId title dtype S O
  have hrw : (chunkDocument content docId title dtype S O).map (fun c => c.id) =
      ((chunkDocument content docId title dtype S O).map (fun c => c.index)).map
        (chunkId docId) := by
    rw [List.map_map]
    exact List.map_congr_left (fun c hc => (hmem c hc).1)
  rw [hrw, hidx]
  exact (List.nodup_range _).map (fun _ _ h => chunkId_inj_idx h)

/-- If the whole remaining weight fits in the chunk size, the loop never emits. -/
theorem chunkFold_no_emit (S O : Nat) (docId title dtype : String) :
    ∀ (ps : List (List Char)) (acc : ChunkAcc),
      acc.chunks = [] →
      acc.cur.length + ((ps.map List.length).sum + 2 * ps.length) ≤ S + 2 →
      (ps.foldl (chunkStep S O docId title dtype) acc).chunks = [] := by
  intro ps
  induction ps with
  | nil => exact fun acc h1 _ => h1
  | cons p rest ih =>
    intro acc h1 hbound
    rw [List.foldl_cons]
    simp only [List.map_cons, List.sum_cons, List.length_cons] at hbound
    by_cases hb : blank p
    · rw [show chunkStep S O docId title dtype acc p = acc from by
        unfold chunkStep
        rw [if_pos hb]]
      exact ih acc h1 (by omega)
    · have hguard : ¬(S < acc.cur.length + p.length ∧ 0 < acc.cur.length) := by
        intro hcon
        omega
      rw [show chunkStep S O docId title dtype acc p =
          { acc with cur := if acc.cur.isEmpty then p
            else acc.cur ++ '\n' :: '\n' :: p } from by
        unfold chunkStep
        rw [if_neg hb, if_neg hguard]]
      refine ih _ h1 ?_
      by_cases hemp : acc.cur.isEmpty
      · simp only [if_pos hemp]
        omega
      · simp only [if_neg hemp, List.length_append, List.length_cons]
        omega

/-- If the buffer is non-blank or some remaining paragraph is non-blank, the
final buffer is non-blank. -/
theorem chunkFold_nonblank (S O : Nat) (docId title dtype : String) :
    ∀ (ps : List (List Char)) (acc : ChunkAcc),
      (blank acc.cur = false ∨ ∃ p ∈ ps, blank p = false) →
      blank ((ps.foldl (chunkStep S O docId title dtype) acc).cur) = false := by
  intro ps
  induction ps with
  | nil =>
    intro acc h
    rcases h with h | ⟨p, hp, _⟩
    · exact h
    · simp at hp
  | cons p rest ih =>
    intro acc h
    rw [List.foldl_cons]
    by_cases hb : blank p
    · rw [show chunkStep S O docId title dtype acc p = acc from by
        unfold chunkStep
        rw [if_pos hb]]
      apply ih
      rcases h with h | ⟨q, hq, hqb⟩
      · exact Or.inl h
      · rcases List.mem_cons.mp hq with rfl | hq'
        · rw [hb] at hqb
          exact absurd hqb (by simp)
        · exact Or.inr ⟨q, hq', hqb⟩
    · have hbf : blank p = false := by
        cases hbp : blank p
        · rfl
        · exact absurd hbp hb
      apply ih
      left
      unfold chunkStep
      rw [if_neg hb]
      split
      · show blank (overlapWords O acc.cur ++ ' ' :: p) = false
        rw [show (' ' :: p) = [' '] ++ p from rfl, ← List.append_assoc,
          blank_append, blank_append, hbf]
        simp
      · by_cases hemp : acc.cur.isEmpty
        · simpa [hemp] using hbf
        · simp only [if_neg hemp]
          rw [show ('\n' :: '\n' :: p) = ['\n', '\n'] ++ p from rfl,
            blank_append, blank_append, hbf]
          simp

/-- Text that fits in the chunk size and contains a non-blank paragraph
produces exactly one chunk. -/
theorem chunkDocument_single (content : String) (docId title dtype : String) (S O : Nat)
    (hlen : content.length ≤ S)
    (hnb : ∃ p ∈ splitParas content.data, blank p = false) :
    (chunkDocument content docId title dtype S O).length = 1 := by
  unfold chunkDocument chunkFinish
  have hcount : 1 ≤ (splitParas content.data).length :=
    Nat.one_le_iff_ne_zero.mpr (by
      simpa using splitAux_ne_nil (content.data.length + 1) [] content.data)
  have hbound : (0 : Nat) + (((splitParas content.data).map List.length).sum +
      2 * (splitParas content.data).length) ≤ S + 2 := by
    have h1 := splitParas_length_bound content.data
    have h2 : content.data.length = content.length := rfl
    omega
  have hempty := chunkFold_no_emit S O docId title dtype (splitParas content.data)
    ⟨[], [], 0⟩ rfl hbound
  have hnb' := chunkFold_nonblank S O docId title dtype (splitParas content.data)
    ⟨[], [], 0⟩ (Or.inr hnb)
  rw [hnb']
  simp [hempty]

/-- A text that is a single (non-blank) paragraph is emitted whole as one
chunk, never split — whatever its length. -/
theorem chunkDocument_single_para (content : String) (docId title dtype : String)
    (S O : Nat) (hp : splitParas content.data = [content.data])
    (hnb : blank content.data = false) :
    chunkDocument content docId title dtype S O =
      [mkChunk docId title dtype content.data 0] := by
  unfold chunkDocument chunkFinish
  rw [hp]
  have hstep : chunkStep S O docId title dtype ⟨[], [], 0⟩ content.data =
      ⟨[], content.data, 0⟩ := by
    unfold chunkStep
    rw [if_neg (by rw [hnb]; simp)]
    rw [if_neg (by intro hcon; exact absurd hcon.2 (by simp))]
    simp [List.isEmpty]
  simp only [List.foldl_cons, List.foldl_nil, hstep]
  rw [hnb]
  simp

/-! ## Frame lemmas: which tables each operation touches -/

theorem embedChunk_fields (gen : Bool) (co : Collaborators) (c : DocumentChunk) :
    (embedChunk gen co c).id = c.id ∧ (embedChunk gen co c).documentId = c.documentId ∧
      (embedChunk gen co c).content = c.content ∧ (embedChunk gen co c).index = c.index ∧
      chunkRowOf (embedChunk gen co c) = chunkRowOf c := by
  unfold embedChunk
  split <;> exact ⟨rfl, rfl, rfl, rfl, rfl⟩

theorem conceptStep_frame (documentId : String) (st : KBState) (c : ConceptIn) :
    (conceptStep documentId st c).documents = st.documents ∧
      (conceptStep documentId st c).chunks = st.chunks ∧
      (conceptStep documentId st c).ftsContent = st.ftsContent := by
  unfold conceptStep
  split
  · exact ⟨rfl, rfl, rfl⟩
  · split <;> exact ⟨rfl, rfl, rfl⟩

theorem pairStep_frame (st : KBState) (p : ConceptIn × ConceptIn) :
    (pairStep st p).documents = st.documents ∧ (pairStep st p).chunks = st.chunks ∧
      (pairStep st p).ftsContent = st.ftsContent ∧
      (pairStep st p).concepts = st.concepts := by
  unfold pairStep
  split
  · exact ⟨rfl, rfl, rfl, rfl⟩
  · split <;> exact ⟨rfl, rfl, rfl, rfl⟩

theorem conceptPass_frame (cs : List ConceptIn) (documentId : String) (st : KBState) :
    (conceptPass cs documentId st).documents = st.documents ∧
      (conceptPass cs documentId st).chunks = st.chunks ∧
      (conceptPass cs documentId st).ftsContent = st.ftsContent := by
  unfold conceptPass
  have h1 : ∀ (l : List ConceptIn) (s : KBState),
      (l.foldl (conceptStep documentId) s).documents = s.documents ∧
        (l.foldl (conceptStep documentId) s).chunks = s.chunks ∧
        (l.foldl (conceptStep documentId) s).ftsContent = s.ftsContent := by
    intro l
    induction l with
    | nil => exact fun s => ⟨rfl, rfl, rfl⟩
    | cons c rest ih =>
      intro s
      rw [List.foldl_cons]
      obtain ⟨e1, e2, e3⟩ := ih (conceptStep documentId s c)
      obtain ⟨f1, f2, f3⟩ := conceptStep_frame documentId s c
      exact ⟨e1.trans f1, e2.trans f2, e3.trans f3⟩
  have h2 : ∀ (l : List (ConceptIn × ConceptIn)) (s : KBState),
      (l.foldl pairStep s).documents = s.documents ∧
        (l.foldl pairStep s).chunks = s.chunks ∧
        (l.foldl pairStep s).ftsContent = s.ftsContent := by
    intro l
    induction l with
    | nil => exact fun s => ⟨rfl, rfl, rfl⟩
    | cons c rest ih =>
      intro s
      rw [List.foldl_cons]
      obtain ⟨e1, e2, e3⟩ := ih (pairStep s c)
      obtain ⟨f1, f2, f3, _⟩ := pairStep_frame s c
      exact ⟨e1.trans f1, e2.trans f2, e3.trans f3⟩
  obtain ⟨a1, a2, a3⟩ := h1 cs st
  obtain ⟨b1, b2, b3⟩ := h2 (pairList cs) (cs.foldl (conceptStep documentId) st)
  exact ⟨b1.trans a1, b2.trans a2, b3.trans a3⟩

theorem conceptLoop_frame (oracle : String → ConceptResponse) (documentId : String) :
    ∀ (slices : List String) (st : KBState),
      (conceptLoop oracle documentId slices st).documents = st.documents ∧
        (conceptLoop oracle documentId slices st).chunks = st.chunks ∧
        (conceptLoop oracle documentId slices st).ftsContent = st.ftsContent := by
  intro slices
  induction slices with
  | nil => exact fun st => ⟨rfl, rfl, rfl⟩
  | cons s rest ih =>
    intro st
    cases ho : oracle s with
    | parsed cs =>
      simp only [conceptLoop, processConceptsChunk, ho]
      obtain ⟨e1, e2, e3⟩ := ih (conceptPass cs documentId st)
      obtain ⟨f1, f2, f3⟩ := conceptPass_frame cs documentId st
      exact ⟨e1.trans f1, e2.trans f2, e3.trans f3⟩
    | notArray =>
      simp only [conceptLoop, processConceptsChunk, ho]
      exact ih st
    | fail =>
      simp [conceptLoop, processConceptsChunk, ho]

/-- `extractConcepts` touches only the graph tables: documents, chunks and the
FTS content are untouched, whatever the collaborator returns. -/
theorem extractConcepts_frame (oracle : String → ConceptResponse)
    (content documentId : String) (st : KBState) :
    (extractConcepts oracle content documentId st).documents = st.documents ∧
      (extractConcepts oracle content documentId st).chunks = st.chunks ∧
      (extractConcepts oracle content documentId st).ftsContent = st.ftsContent :=
  conceptLoop_frame oracle documentId _ st

theorem saveDocumentMetadata_frame (row : DocRow) (st : KBState) :
    (saveDocumentMetadata row st).chunks = st.chunks ∧
      (saveDocumentMetadata row st).concepts = st.concepts ∧
      (saveDocumentMetadata row st).relationships = st.relationships := by
  unfold saveDocumentMetadata
  exact ⟨rfl, rfl, rfl⟩

theorem saveDocumentChunk_frame (c : DocumentChunk) (st : KBState) :
    (saveDocumentChunk c st).documents = st.documents ∧
      (saveDocumentChunk c st).concepts = st.concepts ∧
      (saveDocumentChunk c st).relationships = st.relationships := by
  unfold saveDocumentChunk
  exact ⟨rfl, rfl, rfl⟩

/-! ## Lemmas about the chunk table and the FTS content column -/

/-- The chunk-save loop of `indexDocument`, abstracted over the chunk list. -/
def saveFold (cs : List DocumentChunk) (st : KBState) : KBState :=
  cs.foldl (fun s c => saveDocumentChunk c s) st

theorem saveFold_frame (cs : List DocumentChunk) (st : KBState) :
    (saveFold cs st).documents = st.documents ∧
      (saveFold cs st).concepts = st.concepts ∧
      (saveFold cs st).relationships = st.relationships := by
  induction cs generalizing st with
  | nil => exact ⟨rfl, rfl, rfl⟩
  | cons c rest ih =>
    show (saveFold rest (saveDocumentChunk c st)).documents = st.documents ∧ _ ∧ _
    obtain ⟨e1, e2, e3⟩ := ih (saveDocumentChunk c st)
    obtain ⟨f1, f2, f3⟩ := saveDocumentChunk_frame c st
    exact ⟨e1.trans f1, e2.trans f2, e3.trans f3⟩

/-- Saving chunks whose ids are fresh for the table appends their rows in
order. -/
theorem saveFold_append (cs : List DocumentChunk) :
    ∀ (st : KBState),
      (∀ c ∈ cs, ∀ r ∈ st.chunks, r.id ≠ c.id) →
      ((cs.map (fun c => c.id)).Nodup) →
      (saveFold cs st).chunks = st.chunks ++ cs.map chunkRowOf := by
  induction cs with
  | nil => intro st _ _; simp [saveFold]
  | cons c rest ih =>
    intro st hfresh hnodup
    have hany : st.chunks.any (fun r => r.id = c.id) = false := by
      rw [List.any_eq_false]
      intro r hr
      simpa using hfresh c (List.mem_cons_self c rest) r hr
    have hsave : (saveDocumentChunk c st).chunks = st.chunks ++ [chunkRowOf c] := by
      unfold saveDocumentChunk
      rw [show (st.chunks.any (fun r => r.id = c.id)) = false from hany]
      simp
    show (saveFold rest (saveDocumentChunk c st)).chunks = st.chunks ++ (chunkRowOf c :: rest.map chunkRowOf)
    rw [List.map_cons] at *
    simp only [List.nodup_cons] at hnodup
    have hfresh' : ∀ c' ∈ rest, ∀ r ∈ (saveDocumentChunk c st).chunks, r.id ≠ c'.id := by
      intro c' hc' r hr
      rw [hsave, List.mem_append] at hr
      rcases hr with hr | hr
      · exact hfresh c' (List.mem_cons_of_mem _ hc') r hr
      · simp only [List.mem_singleton] at hr
        subst hr
        show (chunkRowOf c).id ≠ c'.id
        intro hcon
        exact hnodup.1 (by
          rw [show (chunkRowOf c).id = c.id from rfl] at hcon
          rw [hcon]
          exact List.mem_map_of_mem _ hc')
    rw [ih (saveDocumentChunk c st) hfresh' hnodup.2, hsave]
    simp

theorem ftsSet_lookup_self (docId v : String) (fts : List (String × String)) :
    ftsLookup docId (ftsSet docId v fts) = some v := by
  unfold ftsLookup ftsSet
  induction fts with
  | nil => simp
  | cons e rest ih =>
    by_cases he : e.1 = docId
    · simp only [List.filter_cons, he]
      simp
    · rw [List.filter_cons, if_pos (show (decide (e.1 ≠ docId)) = true by simpa using he),
        List.cons_append, List.find?_cons_of_neg _ (by simpa using he)]
      exact ih

theorem ftsAppend_lookup_self (docId s : String) (fts : List (String × String)) :
    ftsLookup docId (ftsAppend docId s fts) =
      (ftsLookup docId fts).map (fun v => v ++ s) := by
  unfold ftsLookup ftsAppend
  induction fts with
  | nil => simp
  | cons e rest ih =>
    by_cases he : e.1 = docId
    · rw [List.map_cons, if_pos he]
      rw [List.find?_cons_of_pos _ (by simpa using he),
        List.find?_cons_of_pos _ (by simpa using he)]
      simp
    · rw [List.map_cons, if_neg he]
      rw [List.find?_cons_of_neg _ (by simpa using he),
        List.find?_cons_of_neg _ (by simpa using he)]
      exact ih

theorem foldl_append_str (xs : List String) :
    ∀ a : String, xs.foldl (· ++ ·) a = a ++ xs.foldl (· ++ ·) "" := by
  induction xs with
  | nil => intro a; simp [String.append_empty]
  | cons x xs ih =>
    intro a
    rw [List.foldl_cons, List.foldl_cons, ih (a ++ x), ih ("" ++ x)]
    rw [show ("" ++ x) = x from String.ext (by simp), String.append_assoc]

theorem join_cons (x : String) (xs : List String) :
    String.join (x :: xs) = x ++ String.join xs := by
  show (x :: xs).foldl (· ++ ·) "" = x ++ xs.foldl (· ++ ·) ""
  rw [List.foldl_cons, show ("" ++ x) = x from String.ext (by simp), foldl_append_str]

/-- Saving a run of chunks of one document appends each chunk's content plus a
space to that document's FTS content column. -/
theorem saveFold_fts (docId : String) (cs : List DocumentChunk) :
    ∀ (st : KBState) (v : String),
      (∀ c ∈ cs, c.documentId = docId) →
      ftsLookup docId st.ftsContent = some v →
      ftsLookup docId (saveFold cs st).ftsContent =
        some (v ++ String.join (cs.map (fun c => c.content ++ " "))) := by
  induction cs with
  | nil =>
    intro st v _ hv
    show ftsLookup docId st.ftsContent = some (v ++ String.join [])
    rw [show String.join [] = "" from rfl, String.append_empty]
    exact hv
  | cons c rest ih =>
    intro st v hdoc hv
    show ftsLookup docId (saveFold rest (saveDocumentChunk c st)).ftsContent = _
    have hstep : ftsLookup docId (saveDocumentChunk c st).ftsContent =
        some (v ++ (c.content ++ " ")) := by
      unfold saveDocumentChunk
      show ftsLookup docId (ftsAppend c.documentId (c.content ++ " ") st.ftsContent) = _
      rw [hdoc c (List.mem_cons_self c rest), ftsAppend_lookup_self, hv]
      rfl
    rw [ih (saveDocumentChunk c st) (v ++ (c.content ++ " "))
      (fun c' hc' => hdoc c' (List.mem_cons_of_mem _ hc')) hstep]
    rw [List.map_cons, join_cons]
    simp [String.append_assoc]

/-! ## Idempotence of chunk saves -/

/-- The chunk table holds the row of `c` — and only that value under `c`'s
id. -/
def chunkSavedIn (c : DocumentChunk) (rows : List ChunkRow) : Prop :=
  (∃ r, r ∈ rows ∧ r = chunkRowOf c) ∧ ∀ r ∈ rows, r.id = c.id → r = chunkRowOf c

theorem saveDocumentChunk_chunks (c : DocumentChunk) (st : KBState) :
    (saveDocumentChunk c st).chunks =
      if st.chunks.any (fun r => r.id = c.id) then
        st.chunks.map (fun r => if r.id = c.id then chunkRowOf c else r)
      else st.chunks ++ [chunkRowOf c] := rfl

theorem save_establishes (c : DocumentChunk) (st : KBState) :
    chunkSavedIn c (saveDocumentChunk c st).chunks := by
  rw [saveDocumentChunk_chunks]
  by_cases hany : st.chunks.any (fun r => r.id = c.id)
  · rw [if_pos hany]
    obtain ⟨r0, hr0, hid0⟩ : ∃ r0, r0 ∈ st.chunks ∧ r0.id = c.id := by
      simpa using List.any_eq_true.mp hany
    refine ⟨⟨chunkRowOf c, ?_, rfl⟩, ?_⟩
    · have := List.mem_map_of_mem (fun r => if r.id = c.id then chunkRowOf c else r) hr0
      simp only [if_pos hid0] at this
      exact this
    · intro r hr hid
      rw [List.mem_map] at hr
      obtain ⟨r1, _, rfl⟩ := hr
      by_cases h1 : r1.id = c.id
      · rw [if_pos h1]
      · rw [if_neg h1] at hid ⊢
        exact absurd hid h1
  · rw [if_neg hany]
    refine ⟨⟨chunkRowOf c, List.mem_append_right _ (List.mem_singleton.mpr rfl), rfl⟩, ?_⟩
    intro r hr hid
    rw [List.mem_append] at hr
    rcases hr with hr | hr
    · exact absurd (List.any_eq_true.mpr ⟨r, hr, by simpa using hid⟩) hany
    · exact List.mem_singleton.mp hr

theorem save_preserves_saved {c c' : DocumentChunk} {st : KBState}
    (hne : c'.id ≠ c.id) (h : chunkSavedIn c st.chunks) :
    chunkSavedIn c (saveDocumentChunk c' st).chunks := by
  rw [saveDocumentChunk_chunks]
  obtain ⟨⟨r0, hr0, hval0⟩, hall⟩ := h
  have hid0 : r0.id = c.id := by rw [hval0]; rfl
  by_cases hany : st.chunks.any (fun r => r.id = c'.id)
  · rw [if_pos hany]
    refine ⟨⟨r0, ?_, hval0⟩, ?_⟩
    · have := List.mem_map_of_mem (fun r => if r.id = c'.id then chunkRowOf c' else r) hr0
      simp only [if_neg (show ¬r0.id = c'.id from by
        rw [hid0]; exact fun hcon => hne (by rw [hcon]))] at this
      exact this
    · intro r hr hid
      rw [List.mem_map] at hr
      obtain ⟨r1, hr1, rfl⟩ := hr
      by_cases h1 : r1.id = c'.id
      · rw [if_pos h1] at hid ⊢
        exact absurd hid (show ¬(chunkRowOf c').id = c.id from by
          exact fun hcon => hne hcon)
      · rw [if_neg h1] at hid ⊢
        exact hall r1 hr1 hid
  · rw [if_neg hany]
    refine ⟨⟨r0, List.mem_append_left _ hr0, hval0⟩, ?_⟩
    intro r hr hid
    rw [List.mem_append] at hr
    rcases hr with hr | hr
    · exact hall r hr hid
    · rw [List.mem_singleton.mp hr] at hid
      exact absurd hid (show ¬(chunkRowOf c').id = c.id from fun hcon => hne hcon)

theorem saveFold_preserves_saved {c : DocumentChunk} (cs : List DocumentChunk) :
    ∀ (st : KBState), (∀ c' ∈ cs, c'.id ≠ c.id) → chunkSavedIn c st.chunks →
      chunkSavedIn c (saveFold cs st).chunks := by
  induction cs with
  | nil => exact fun st _ h => h
  | cons c0 rest ih =>
    intro st hne h
    exact ih (saveDocumentChunk c0 st) (fun c' hc' => hne c' (List.mem_cons_of_mem _ hc'))
      (save_preserves_saved (hne c0 (List.mem_cons_self _ _)) h)

theorem saveFold_establishes (cs : List DocumentChunk) :
    ∀ (st : KBState), ((cs.map (fun c => c.id)).Nodup) →
      ∀ c ∈ cs, chunkSavedIn c (saveFold cs st).chunks := by
  induction cs with
  | nil => intro st _ c hc; simp at hc
  | cons c0 rest ih =>
    intro st hnodup c hc
    rw [List.map_cons, List.nodup_cons] at hnodup
    rcases List.mem_cons.mp hc with rfl | hc'
    · exact saveFold_preserves_saved rest (saveDocumentChunk c st)
        (fun c' hc' hcon => hnodup.1 (hcon ▸ List.mem_map_of_mem _ hc'))
        (save_establishes c st)
    · exact ih (saveDocumentChunk c0 st) hnodup.2 c hc'

theorem filter_length_map_replace (c : DocumentChunk) (d : String) :
    ∀ (rows : List ChunkRow), (∀ r ∈ rows, r.id = c.id → r = chunkRowOf c) →
      (((rows.map (fun r => if r.id = c.id then chunkRowOf c else r)).filter
          (fun r => r.documentId = d)).length) =
        ((rows.filter (fun r => r.documentId = d)).length) := by
  intro rows
  induction rows with
  | nil => intro _; rfl
  | cons r rest ih =>
    intro hall
    have hallr := hall r (List.mem_cons_self _ _)
    have hrest : ∀ r' ∈ rest, r'.id = c.id → r' = chunkRowOf c :=
      fun r' hr' hid => hall r' (List.mem_cons_of_mem _ hr') hid
    rw [List.map_cons, List.filter_cons, List.filter_cons]
    have hrepl : (if r.id = c.id then chunkRowOf c else r).documentId = r.documentId := by
      by_cases hid : r.id = c.id
      · rw [if_pos hid, ← hallr hid]
      · rw [if_neg hid]
    rw [hrepl]
    by_cases hd : r.documentId = d
    · have hdd : decide (r.documentId = d) = true := by simp [hd]
      rw [if_pos hdd, if_pos hdd]
      simp only [List.length_cons]
      rw [ih hrest]
    · have hdd : ¬ decide (r.documentId = d) = true := by simp [hd]
      rw [if_neg hdd, if_neg hdd]
      exact ih hrest

theorem save_count_preserved {c : DocumentChunk} {st : KBState}
    (h : chunkSavedIn c st.chunks) (d : String) :
    chunkCount d (saveDocumentChunk c st) = chunkCount d st := by
  obtain ⟨⟨r0, hr0, hval0⟩, hall⟩ := h
  have hany : st.chunks.any (fun r => r.id = c.id) = true :=
    List.any_eq_true.mpr ⟨r0, hr0, by rw [hval0]; simp [chunkRowOf]⟩
  unfold chunkCount
  rw [saveDocumentChunk_chunks, if_pos hany]
  exact filter_length_map_replace c d st.chunks hall

theorem saveFold_count_preserved (cs : List DocumentChunk) :
    ∀ (st : KBState), ((cs.map (fun c => c.id)).Nodup) →
      (∀ c ∈ cs, chunkSavedIn c st.chunks) →
      ∀ d, chunkCount d (saveFold cs st) = chunkCount d st := by
  induction cs with
  | nil => intro st _ _ d; rfl
  | cons c0 rest ih =>
    intro st hnodup hsaved d
    rw [List.map_cons, List.nodup_cons] at hnodup
    have h0 := hsaved c0 (List.mem_cons_self _ _)
    have hrest : ∀ c ∈ rest, chunkSavedIn c (saveDocumentChunk c0 st).chunks := by
      intro c hc
      exact save_preserves_saved
        (fun hcon => hnodup.1 (hcon ▸ List.mem_map_of_mem _ hc)) (hsaved c (List.mem_cons_of_mem _ hc))
    show chunkCount d (saveFold rest (saveDocumentChunk c0 st)) = _
    rw [ih (saveDocumentChunk c0 st) hnodup.2 hrest d, save_count_preserved h0 d]

/-! ## Assembling `indexDocument` -/

/-- The document row `indexDocument` upserts for `filePath`. -/
def docRowOf (filePath : String) : DocRow :=
  { id := sha256 filePath, title := basename filePath, path := filePath,
    type := detectFileType filePath }

/-- The state a successful `indexDocument` run leaves behind when the file at
`filePath` reads as `content`. -/
def indexedState (cfg : KBConfig) (co : Collaborators) (g : Bool)
    (filePath content : String) (st : KBState) : KBState :=
  extractConcepts co.concepts content (sha256 filePath)
    (saveFold ((chunkDocument content (sha256 filePath) (basename filePath)
        (detectFileType filePath) cfg.chunkSize cfg.chunkOverlap).map (embedChunk g co))
      (saveDocumentMetadata (docRowOf filePath) st))

theorem indexDocument_eq (cfg : KBConfig) (fs : FileSystem) (co : Collaborators)
    (g : Bool) (filePath content : String) (st : KBState)
    (h : readFile fs filePath = some content) :
    indexDocument cfg fs co g filePath st =
      .ok (sha256 filePath, indexedState cfg co g filePath content st) := by
  unfold indexDocument
  rw [h]
  unfold indexedState saveFold
  rw [List.foldl_map]
  rfl

theorem chunkCount_ext {st st' : KBState} (h : st.chunks = st'.chunks) (d : String) :
    chunkCount d st = chunkCount d st' := by
  unfold chunkCount
  rw [h]

/-- The `embedChunk` map changes no chunk ids. -/
theorem mapped_ids_nodup (g : Bool) (co : Collaborators)
    (content docId title dtype : String) (S O : Nat) :
    (((chunkDocument content docId title dtype S O).map (embedChunk g co)).map
      (fun c => c.id)).Nodup := by
  rw [List.map_map]
  have h : (chunkDocument content docId title dtype S O).map
        ((fun c => c.id) ∘ embedChunk g co) =
      (chunkDocument content docId title dtype S O).map (fun c => c.id) :=
    List.map_congr_left (fun c _ => (embedChunk_fields g co c).1)
  rw [h]
  exact chunkDocument_ids_nodup content docId title dtype S O

/-- After a successful `indexDocument`, every chunk of the document is saved
in the chunk table (its row is present, and it is the only row under its id). -/
theorem indexedState_saved (cfg : KBConfig) (co : Collaborators) (g : Bool)
    (filePath content : String) (st : KBState) :
    ∀ c ∈ (chunkDocument content (sha256 filePath) (basename filePath)
        (detectFileType filePath) cfg.chunkSize cfg.chunkOverlap).map (embedChunk g co),
      chunkSavedIn c (indexedState cfg co g filePath content st).chunks := by
  intro c hc
  unfold indexedState
  rw [(extractConcepts_frame co.concepts content (sha256 filePath) _).2.1]
  exact saveFold_establishes _ _
    (mapped_ids_nodup g co content (sha256 filePath) (basename filePath)
      (detectFileType filePath) cfg.chunkSize cfg.chunkOverlap) c hc

/-- Re-running `indexDocument` on a state where all chunks of the document are
already saved leaves every per-document chunk row count unchanged. -/
theorem reindex_count_stable (cfg : KBConfig) (co : Collaborators) (g : Bool)
    (filePath content : String) (st1 : KBState)
    (hsaved : ∀ c ∈ (chunkDocument content (sha256 filePath) (basename filePath)
        (detectFileType filePath) cfg.chunkSize cfg.chunkOverlap).map (embedChunk g co),
      chunkSavedIn c st1.chunks) (d : String) :
    chunkCount d (indexedState cfg co g filePath content st1) = chunkCount d st1 := by
  unfold indexedState
  rw [chunkCount_ext (extractConcepts_frame co.concepts content (sha256 filePath) _).2.1 d]
  rw [saveFold_count_preserved _ _
    (mapped_ids_nodup g co content (sha256 filePath) (basename filePath)
      (detectFileType filePath) cfg.chunkSize cfg.chunkOverlap)
    (fun c hc => ((saveDocumentMetadata_frame _ st1).1).symm ▸ hsaved c hc) d]
  exact chunkCount_ext (saveDocumentMetadata_frame _ st1).1 d

/-! ## The concept-graph invariant and monotonicity of frequencies / weights -/

/-- Underscore-free — true of every `sha256` output, hence of every document
and concept id the service mints. -/
def noUnd (s : String) : Prop := '_' ∉ s.data

instance (s : String) : Decidable (noUnd s) :=
  inferInstanceAs (Decidable ('_' ∉ s.data))

/-- A well-formed relationship row, relative to the concepts table: either a
`CONTAINS` edge as `conceptStep` mints it (id determined by source and target,
weight bounded by the target concept's frequency) or a `RELATED` edge as
`pairStep` mints it (id of the order-dependent `RELATED` shape). -/
def relWF (concepts : List ConceptRow) (r : RelRow) : Prop :=
  (∃ a b, noUnd a ∧ noUnd b ∧ r.id = containsRelId a b ∧ r.sourceId = a ∧
    r.targetId = b ∧ r.relationshipType = "CONTAINS" ∧
    ∃ c ∈ concepts, c.id = b ∧ r.weight ≤ (c.frequency : ℚ)) ∨
  (∃ a b, r.id = relatedRelId a b ∧ r.relationshipType = "RELATED")

/-- The invariant the graph tables keep across extraction passes: concept ids
are pairwise distinct and every relationship row is well formed. -/
def GraphInv (st : KBState) : Prop :=
  (st.concepts.map (fun c => c.id)).Nodup ∧ ∀ r ∈ st.relationships, relWF st.concepts r

/-- Every concept frequency and relationship weight of `s` survives into `t`
under the same id with no smaller value. -/
def stateLe (s t : KBState) : Prop :=
  (∀ cr ∈ s.concepts, ∃ cr' ∈ t.concepts, cr'.id = cr.id ∧ cr.frequency ≤ cr'.frequency) ∧
  ∀ r ∈ s.relationships, ∃ r' ∈ t.relationships, r'.id = r.id ∧ r.weight ≤ r'.weight

theorem GraphInv_empty : GraphInv emptyState := by
  constructor
  · simp [emptyState]
  · intro r hr
    simp [emptyState] at hr

theorem stateLe_refl (s : KBState) : stateLe s s :=
  ⟨fun cr hcr => ⟨cr, hcr, rfl, le_refl _⟩, fun r hr => ⟨r, hr, rfl, le_refl _⟩⟩

theorem stateLe_trans {s t u : KBState} (h1 : stateLe s t) (h2 : stateLe t u) :
    stateLe s u := by
  constructor
  · intro cr hcr
    obtain ⟨c1, hc1, hid1, hf1⟩ := h1.1 cr hcr
    obtain ⟨c2, hc2, hid2, hf2⟩ := h2.1 c1 hc1
    exact ⟨c2, hc2, hid2.trans hid1, le_trans hf1 hf2⟩
  · intro r hr
    obtain ⟨r1, hr1, hid1, hw1⟩ := h1.2 r hr
    obtain ⟨r2, hr2, hid2, hw2⟩ := h2.2 r1 hr1
    exact ⟨r2, hr2, hid2.trans hid1, le_trans hw1 hw2⟩

/-- `relWF` only reads frequencies upward: a concepts table dominating the old
one (same ids, no smaller frequencies) keeps every row well formed. -/
theorem relWF_mono {cs cs' : List ConceptRow}
    (hle : ∀ cr ∈ cs, ∃ cr' ∈ cs', cr'.id = cr.id ∧ cr.frequency ≤ cr'.frequency)
    {r : RelRow} (h : relWF cs r) : relWF cs' r := by
  rcases h with ⟨a, b, hna, hnb, hid, hs, ht, hty, c0, hc0, hc0id, hw⟩ | h
  · obtain ⟨c1, hc1, hc1id, hc1f⟩ := hle c0 hc0
    exact Or.inl ⟨a, b, hna, hnb, hid, hs, ht, hty, c1, hc1, hc1id.trans hc0id,
      le_trans hw (by exact_mod_cast hc1f)⟩
  · exact Or.inr h

theorem concept_unique {cs : List ConceptRow} (hnodup : (cs.map (fun c => c.id)).Nodup)
    {c1 c2 : ConceptRow} (h1 : c1 ∈ cs) (h2 : c2 ∈ cs) (hid : c1.id = c2.id) : c1 = c2 :=
  List.inj_on_of_nodup_map hnodup h1 h2 hid

theorem insertOrReplaceRel_mem_self (row : RelRow) (rels : List RelRow) :
    row ∈ insertOrReplaceRel row rels :=
  List.mem_append_right _ (List.mem_singleton.mpr rfl)

theorem mem_insertOrReplaceRel {r row : RelRow} {rels : List RelRow}
    (h : r ∈ insertOrReplaceRel row rels) :
    r = row ∨ (r ∈ rels ∧ ¬(r.id = row.id ∨ (r.sourceId = row.sourceId ∧
      r.targetId = row.targetId ∧ r.relationshipType = row.relationshipType))) := by
  unfold insertOrReplaceRel at h
  rw [List.mem_append] at h
  rcases h with h | h
  · rw [List.mem_filter] at h
    exact Or.inr ⟨h.1, of_decide_eq_true h.2⟩
  · exact Or.inl (List.mem_singleton.mp h)

theorem insertOrReplaceRel_covers (row : RelRow) {r : RelRow} {rels : List RelRow}
    (hmem : r ∈ rels) :
    r ∈ insertOrReplaceRel row rels ∨ (r.id = row.id ∨ (r.sourceId = row.sourceId ∧
      r.targetId = row.targetId ∧ r.relationshipType = row.relationshipType)) := by
  by_cases hc : r.id = row.id ∨ (r.sourceId = row.sourceId ∧
      r.targetId = row.targetId ∧ r.relationshipType = row.relationshipType)
  · exact Or.inr hc
  · exact Or.inl (List.mem_append_left _ (List.mem_filter.mpr ⟨hmem, decide_eq_true hc⟩))

/-- The concept row the `none` branch of `conceptStep` inserts. -/
def freshConcept (c : ConceptIn) : ConceptRow :=
  { id := conceptIdOf c.name, name := c.name, type := jsToUpper c.type,
    description := c.description, frequency := 1 }

/-- The `CONTAINS` edge `conceptStep` upserts, with weight `w`. -/
def containsRow (d k ty : String) (w : ℚ) : RelRow :=
  { id := containsRelId d k, sourceId := d, sourceType := "DOCUMENT",
    targetId := k, targetType := ty, relationshipType := "CONTAINS", weight := w }

/-- The `RELATED` edge the `else` branch of `pairStep` inserts. -/
def relatedRow (p : ConceptIn × ConceptIn) : RelRow :=
  { id := relatedRelId (conceptIdOf p.1.name) (conceptIdOf p.2.name),
    sourceId := conceptIdOf p.1.name, sourceType := jsToUpper p.1.type,
    targetId := conceptIdOf p.2.name, targetType := jsToUpper p.2.type,
    relationshipType := "RELATED", weight := 1 }

/-- One `conceptStep` preserves the graph invariant and never lowers a
frequency or a weight.  The document id must be underscore-free, as every
minted `SHA256(filePath)` id is. -/
theorem conceptStep_mono (d : String) (hd : noUnd d) (st : KBState) (c : ConceptIn)
    (hinv : GraphInv st) :
    GraphInv (conceptStep d st c) ∧ stateLe st (conceptStep d st c) := by
  obtain ⟨hnodup, hwf⟩ := hinv
  unfold conceptStep
  by_cases hskip : c.name = "" ∨ c.type = ""
  · rw [if_pos hskip]
    exact ⟨⟨hnodup, hwf⟩, stateLe_refl st⟩
  rw [if_neg hskip]
  have hnk : noUnd (conceptIdOf c.name) := sha256_no_underscore _
  cases hfind : st.concepts.find? (fun r => r.id = conceptIdOf c.name) with
  | some ex =>
    simp only [hfind]
    have hexmem : ex ∈ st.concepts := List.mem_of_find?_eq_some hfind
    have hexid : ex.id = conceptIdOf c.name := by
      have hp := List.find?_some hfind
      exact of_decide_eq_true hp
    have hext : ∀ cr ∈ st.concepts, cr.id = conceptIdOf c.name → cr = ex := fun cr hcr hid =>
      concept_unique hnodup hcr hexmem (hid.trans hexid.symm)
    have hcmono : ∀ cr ∈ st.concepts,
        ∃ cr' ∈ st.concepts.map (fun r => if r.id = conceptIdOf c.name
            then { r with frequency := r.frequency + 1 } else r),
          cr'.id = cr.id ∧ cr.frequency ≤ cr'.frequency := by
      intro cr hcr
      by_cases h : cr.id = conceptIdOf c.name
      · refine ⟨{ cr with frequency := cr.frequency + 1 }, ?_, rfl, Nat.le_succ _⟩
        have hmem : (if cr.id = conceptIdOf c.name
              then ({ cr with frequency := cr.frequency + 1 } : ConceptRow) else cr) ∈
            st.concepts.map (fun r => if r.id = conceptIdOf c.name
              then { r with frequency := r.frequency + 1 } else r) :=
          List.mem_map_of_mem _ hcr
        rwa [if_pos h] at hmem
      · refine ⟨cr, ?_, rfl, le_refl _⟩
        have hmem : (if cr.id = conceptIdOf c.name
              then ({ cr with frequency := cr.frequency + 1 } : ConceptRow) else cr) ∈
            st.concepts.map (fun r => if r.id = conceptIdOf c.name
              then { r with frequency := r.frequency + 1 } else r) :=
          List.mem_map_of_mem _ hcr
        rwa [if_neg h] at hmem
    have hids : ((st.concepts.map (fun r => if r.id = conceptIdOf c.name
        then { r with frequency := r.frequency + 1 } else r)).map (fun x => x.id)).Nodup := by
      have he : (st.concepts.map (fun r => if r.id = conceptIdOf c.name
          then { r with frequency := r.frequency + 1 } else r)).map (fun x => x.id) =
          st.concepts.map (fun x => x.id) := by
        rw [List.map_map]
        refine List.map_congr_left ?_
        intro r _
        by_cases h : r.id = conceptIdOf c.name
        · simp [h]
        · simp [h]
      rw [he]
      exact hnodup
    have hbumpex : ({ ex with frequency := ex.frequency + 1 } : ConceptRow) ∈
        st.concepts.map (fun r => if r.id = conceptIdOf c.name
          then { r with frequency := r.frequency + 1 } else r) := by
      have hmem : (if ex.id = conceptIdOf c.name
            then ({ ex with frequency := ex.frequency + 1 } : ConceptRow) else ex) ∈
          st.concepts.map (fun r => if r.id = conceptIdOf c.name
            then { r with frequency := r.frequency + 1 } else r) :=
        List.mem_map_of_mem _ hexmem
      rwa [if_pos hexid] at hmem
    have hwf' : ∀ r ∈ insertOrReplaceRel
        (containsRow d (conceptIdOf c.name) (jsToUpper c.type) (ex.frequency + 1)) st.relationships,
        relWF (st.concepts.map (fun r => if r.id = conceptIdOf c.name
          then { r with frequency := r.frequency + 1 } else r)) r := by
      intro r hr
      rcases mem_insertOrReplaceRel hr with rfl | ⟨hmem, _⟩
      · exact Or.inl ⟨d, conceptIdOf c.name, hd, hnk, rfl, rfl, rfl, rfl,
          { ex with frequency := ex.frequency + 1 }, hbumpex, hexid,
          by show (ex.frequency : ℚ) + 1 ≤ ((ex.frequency + 1 : ℕ) : ℚ); push_cast; exact le_refl _⟩
      · exact relWF_mono hcmono (hwf r hmem)
    have hrmono : ∀ r ∈ st.relationships, ∃ r' ∈ insertOrReplaceRel
        (containsRow d (conceptIdOf c.name) (jsToUpper c.type) (ex.frequency + 1)) st.relationships,
        r'.id = r.id ∧ r.weight ≤ r'.weight := by
      intro r hr
      rcases insertOrReplaceRel_covers
        (containsRow d (conceptIdOf c.name) (jsToUpper c.type) (ex.frequency + 1)) hr with hin | hconf
      · exact ⟨r, hin, rfl, le_refl _⟩
      · have hid : r.id = containsRelId d (conceptIdOf c.name) := by
          rcases hconf with hid | ⟨hs, ht, hty⟩
          · exact hid
          · rcases hwf r hr with ⟨a, b, hna, hnb, hid', hs', ht', hty', c0, hc0, hc0id, hw⟩ |
              ⟨a, b, hid', hty'⟩
            · rw [hid', ← hs', ← ht', hs, ht]
              rfl
            · rw [hty'] at hty
              exact absurd (show ("RELATED" : String) = "CONTAINS" from hty) (by decide)
        rcases hwf r hr with ⟨a, b, hna, hnb, hid', hs', ht', hty', c0, hc0, hc0id, hw⟩ |
            ⟨a, b, hid', hty'⟩
        · have hab : a = d ∧ b = conceptIdOf c.name :=
            containsRelId_inj hna hnb hd hnk (hid'.symm.trans hid)
          have hc0ex : c0 = ex := hext c0 hc0 (hc0id.trans hab.2)
          refine ⟨_, insertOrReplaceRel_mem_self _ _, hid.symm, ?_⟩
          show r.weight ≤ (ex.frequency : ℚ) + 1
          rw [hc0ex] at hw
          linarith
        · rw [hid'] at hid
          exact absurd hid.symm (containsRelId_ne_relatedRelId _ _ _ _)
    exact ⟨⟨hids, hwf'⟩, hcmono, hrmono⟩
  | none =>
    simp only [hfind]
    have hnone : ∀ cr ∈ st.concepts, ¬ cr.id = conceptIdOf c.name := by
      intro cr hcr
      have h := List.find?_eq_none.mp hfind cr hcr
      simpa using h
    have hids : ((st.concepts ++ [freshConcept c]).map (fun x => x.id)).Nodup := by
      rw [List.map_append]
      refine List.Nodup.append hnodup (List.nodup_singleton _) ?_
      intro x hx hy
      rw [List.mem_map] at hx
      obtain ⟨cr, hcr, rfl⟩ := hx
      rw [List.map_cons, List.map_nil, List.mem_singleton] at hy
      exact hnone cr hcr hy
    have hcmono : ∀ cr ∈ st.concepts,
        ∃ cr' ∈ st.concepts ++ [freshConcept c],
          cr'.id = cr.id ∧ cr.frequency ≤ cr'.frequency :=
      fun cr hcr => ⟨cr, List.mem_append_left _ hcr, rfl, le_refl _⟩
    have hnewmem : freshConcept c ∈ st.concepts ++ [freshConcept c] :=
      List.mem_append_right _ (List.mem_singleton.mpr rfl)
    have hnoconf : ∀ r ∈ st.relationships, ¬(r.id = containsRelId d (conceptIdOf c.name) ∨
        (r.sourceId = d ∧ r.targetId = conceptIdOf c.name ∧
          r.relationshipType = "CONTAINS")) := by
      intro r hr hcon
      rcases hwf r hr with ⟨a, b, hna, hnb, hid', hs', ht', hty', c0, hc0, hc0id, hw⟩ |
          ⟨a, b, hid', hty'⟩
      · rcases hcon with hid | ⟨hs, ht, hty⟩
        · have hab := containsRelId_inj hna hnb hd hnk (hid'.symm.trans hid)
          exact hnone c0 hc0 (hc0id.trans hab.2)
        · have hb : b = conceptIdOf c.name := by rw [← ht', ht]
          exact hnone c0 hc0 (hc0id.trans hb)
      · rcases hcon with hid | ⟨hs, ht, hty⟩
        · rw [hid'] at hid
          exact absurd hid.symm (containsRelId_ne_relatedRelId _ _ _ _)
        · rw [hty'] at hty
          exact absurd hty (by decide)
    have hwf' : ∀ r ∈ insertOrReplaceRel
        (containsRow d (conceptIdOf c.name) (jsToUpper c.type) 1) st.relationships,
        relWF (st.concepts ++ [freshConcept c]) r := by
      intro r hr
      rcases mem_insertOrReplaceRel hr with rfl | ⟨hmem, _⟩
      · exact Or.inl ⟨d, conceptIdOf c.name, hd, hnk, rfl, rfl, rfl, rfl,
          freshConcept c, hnewmem, rfl, by norm_num [freshConcept, containsRow]⟩
      · exact relWF_mono hcmono (hwf r hmem)
    have hrmono : ∀ r ∈ st.relationships, ∃ r' ∈ insertOrReplaceRel
        (containsRow d (conceptIdOf c.name) (jsToUpper c.type) 1) st.relationships,
        r'.id = r.id ∧ r.weight ≤ r'.weight := by
      intro r hr
      rcases insertOrReplaceRel_covers
        (containsRow d (conceptIdOf c.name) (jsToUpper c.type) 1) hr with hin | hconf
      · exact ⟨r, hin, rfl, le_refl _⟩
      · exact absurd hconf (hnoconf r hr)
    exact ⟨⟨hids, hwf'⟩, hcmono, hrmono⟩

/-- One `pairStep` preserves the graph invariant and never lowers a frequency
or a weight. -/
theorem pairStep_mono (st : KBState) (p : ConceptIn × ConceptIn) (hinv : GraphInv st) :
    GraphInv (pairStep st p) ∧ stateLe st (pairStep st p) := by
  obtain ⟨hnodup, hwf⟩ := hinv
  unfold pairStep
  by_cases hskip : p.1.name = "" ∨ p.2.name = ""
  · rw [if_pos hskip]
    exact ⟨⟨hnodup, hwf⟩, stateLe_refl st⟩
  rw [if_neg hskip]
  by_cases hany : st.relationships.any
      (fun r => r.id = relatedRelId (conceptIdOf p.1.name) (conceptIdOf p.2.name)) = true
  · rw [if_pos hany]
    have hwfm : ∀ r ∈ st.relationships.map
        (fun r => if r.id = relatedRelId (conceptIdOf p.1.name) (conceptIdOf p.2.name)
          then { r with weight := r.weight + 1/2 } else r),
        relWF st.concepts r := by
      intro r hr
      rw [List.mem_map] at hr
      obtain ⟨r0, hr0, rfl⟩ := hr
      by_cases h : r0.id = relatedRelId (conceptIdOf p.1.name) (conceptIdOf p.2.name)
      · rw [if_pos h]
        rcases hwf r0 hr0 with ⟨a, b, hna, hnb, hid', hs', ht', hty', c0, hc0, hc0id, hw⟩ |
            ⟨a, b, hid', hty'⟩
        · rw [hid'] at h
          exact absurd h (containsRelId_ne_relatedRelId _ _ _ _)
        · exact Or.inr ⟨a, b, hid', hty'⟩
      · rw [if_neg h]
        exact hwf r0 hr0
    have hrmono : ∀ r ∈ st.relationships, ∃ r' ∈ st.relationships.map
        (fun r => if r.id = relatedRelId (conceptIdOf p.1.name) (conceptIdOf p.2.name)
          then { r with weight := r.weight + 1/2 } else r),
        r'.id = r.id ∧ r.weight ≤ r'.weight := by
      intro r hr
      by_cases h : r.id = relatedRelId (conceptIdOf p.1.name) (conceptIdOf p.2.name)
      · refine ⟨{ r with weight := r.weight + 1/2 }, ?_, rfl, by linarith⟩
        have hmem : (if r.id = relatedRelId (conceptIdOf p.1.name) (conceptIdOf p.2.name)
              then ({ r with weight := r.weight + 1/2 } : RelRow) else r) ∈
            st.relationships.map
              (fun r => if r.id = relatedRelId (conceptIdOf p.1.name) (conceptIdOf p.2.name)
                then { r with weight := r.weight + 1/2 } else r) :=
          List.mem_map_of_mem _ hr
        rwa [if_pos h] at hmem
      · refine ⟨r, ?_, rfl, le_refl _⟩
        have hmem : (if r.id = relatedRelId (conceptIdOf p.1.name) (conceptIdOf p.2.name)
              then ({ r with weight := r.weight + 1/2 } : RelRow) else r) ∈
            st.relationships.map
              (fun r => if r.id = relatedRelId (conceptIdOf p.1.name) (conceptIdOf p.2.name)
                then { r with weight := r.weight + 1/2 } else r) :=
          List.mem_map_of_mem _ hr
        rwa [if_neg h] at hmem
    exact ⟨⟨hnodup, hwfm⟩, fun cr hcr => ⟨cr, hcr, rfl, le_refl _⟩, hrmono⟩
  · rw [if_neg hany]
    have hwfa : ∀ r ∈ st.relationships ++ [relatedRow p], relWF st.concepts r := by
      intro r hr
      rw [List.mem_append] at hr
      rcases hr with hr | hr
      · exact hwf r hr
      · rw [List.mem_singleton] at hr
        subst hr
        exact Or.inr ⟨conceptIdOf p.1.name, conceptIdOf p.2.name, rfl, rfl⟩
    have hrmono : ∀ r ∈ st.relationships, ∃ r' ∈ st.relationships ++ [relatedRow p],
        r'.id = r.id ∧ r.weight ≤ r'.weight :=
      fun r hr => ⟨r, List.mem_append_left _ hr, rfl, le_refl _⟩
    exact ⟨⟨hnodup, hwfa⟩, fun cr hcr => ⟨cr, hcr, rfl, le_refl _⟩, hrmono⟩

theorem conceptFold_mono (d : String) (hd : noUnd d) (cs : List ConceptIn) :
    ∀ st : KBState, GraphInv st →
      GraphInv (cs.foldl (conceptStep d) st) ∧ stateLe st (cs.foldl (conceptStep d) st) := by
  induction cs with
  | nil => exact fun st h => ⟨h, stateLe_refl st⟩
  | cons c rest ih =>
    intro st h
    rw [List.foldl_cons]
    obtain ⟨h1, h2⟩ := conceptStep_mono d hd st c h
    obtain ⟨h3, h4⟩ := ih (conceptStep d st c) h1
    exact ⟨h3, stateLe_trans h2 h4⟩

theorem pairFold_mono (ps : List (ConceptIn × ConceptIn)) :
    ∀ st : KBState, GraphInv st →
      GraphInv (ps.foldl pairStep st) ∧ stateLe st (ps.foldl pairStep st) := by
  induction ps with
  | nil => exact fun st h => ⟨h, stateLe_refl st⟩
  | cons q rest ih =>
    intro st h
    rw [List.foldl_cons]
    obtain ⟨h1, h2⟩ := pairStep_mono st q h
    obtain ⟨h3, h4⟩ := ih (pairStep st q) h1
    exact ⟨h3, stateLe_trans h2 h4⟩

/-- One full extraction pass preserves the invariant and never lowers a
frequency or a weight. -/
theorem conceptPass_mono (cs : List ConceptIn) (d : String) (hd : noUnd d) (st : KBState)
    (h : GraphInv st) : GraphInv (conceptPass cs d st) ∧ stateLe st (conceptPass cs d st) := by
  obtain ⟨h1, h2⟩ := conceptFold_mono d hd cs st h
  obtain ⟨h3, h4⟩ := pairFold_mono (pairList cs) (cs.foldl (conceptStep d) st) h1
  exact ⟨h3, stateLe_trans h2 h4⟩

theorem passesFold_mono (passes : List (String × List ConceptIn)) :
    ∀ st : KBState, (∀ q ∈ passes, noUnd q.1) → GraphInv st →
      GraphInv (passes.foldl (fun s q => conceptPass q.2 q.1 s) st) ∧
        stateLe st (passes.foldl (fun s q => conceptPass q.2 q.1 s) st) := by
  induction passes with
  | nil => exact fun st _ h => ⟨h, stateLe_refl st⟩
  | cons q rest ih =>
    intro st hq h
    rw [List.foldl_cons]
    obtain ⟨h1, h2⟩ := conceptPass_mono q.2 q.1 (hq q (List.mem_cons_self _ _)) st h
    obtain ⟨h3, h4⟩ := ih (conceptPass q.2 q.1 st)
      (fun q' hq' => hq q' (List.mem_cons_of_mem _ hq')) h1
    exact ⟨h3, stateLe_trans h2 h4⟩

/-! ## Facts about `cosineSimilarity` -/

theorem normSq_cons (x : ℚ) (xs : List ℚ) : normSq (x :: xs) = x * x + normSq xs := by
  simp [normSq]

theorem normSq_nonneg (v : List ℚ) : 0 ≤ normSq v := by
  induction v with
  | nil => simp [normSq]
  | cons x xs ih =>
    rw [normSq_cons]
    have := mul_self_nonneg x
    linarith

theorem normSq_eq_zero_iff (v : List ℚ) : normSq v = 0 ↔ ∀ x ∈ v, x = 0 := by
  induction v with
  | nil => simp [normSq]
  | cons x xs ih =>
    rw [normSq_cons]
    constructor
    · intro h
      have hx2 : 0 ≤ x * x := mul_self_nonneg x
      have hxs : 0 ≤ normSq xs := normSq_nonneg xs
      have h1 : x * x = 0 := by linarith
      have h2 : normSq xs = 0 := by linarith
      intro y hy
      rcases List.mem_cons.mp hy with rfl | hy'
      · exact mul_self_eq_zero.mp h1
      · exact ih.mp h2 y hy'
    · intro h
      have h1 : x = 0 := h x (List.mem_cons_self _ _)
      have h2 : normSq xs = 0 := ih.mpr (fun y hy => h y (List.mem_cons_of_mem _ hy))
      rw [h1, h2]
      ring

theorem dotProduct_self (v : List ℚ) : dotProduct v v = normSq v := by
  induction v with
  | nil => rfl
  | cons x xs ih =>
    have h : dotProduct (x :: xs) (x :: xs) = x * x + dotProduct xs xs := by
      simp [dotProduct]
    rw [h, ih, normSq_cons]

theorem normSq_neg (v : List ℚ) : normSq (v.map (fun x => -x)) = normSq v := by
  induction v with
  | nil => rfl
  | cons x xs ih =>
    rw [List.map_cons, normSq_cons, normSq_cons, ih, neg_mul_neg]

theorem dotProduct_neg_right (v : List ℚ) :
    dotProduct v (v.map (fun x => -x)) = -normSq v := by
  induction v with
  | nil => simp [dotProduct, normSq]
  | cons x xs ih =>
    have h : dotProduct (x :: xs) ((x :: xs).map (fun y => -y)) =
        x * (-x) + dotProduct xs (xs.map (fun y => -y)) := by
      simp [dotProduct]
    rw [h, ih, normSq_cons]
    ring

theorem cosineSimilarity_self (v : List ℚ) (hv : normSq v ≠ 0) :
    cosineSimilarity v v = some 1 := by
  have hpos : (0 : ℝ) < (normSq v : ℝ) := by
    exact_mod_cast lt_of_le_of_ne (normSq_nonneg v) (Ne.symm hv)
  unfold cosineSimilarity
  rw [if_neg (by simp), if_neg (by simp [hv]), dotProduct_self,
    Real.mul_self_sqrt hpos.le, div_self hpos.ne']

theorem cosineSimilarity_neg (v : List ℚ) (hv : normSq v ≠ 0) :
    cosineSimilarity v (v.map (fun x => -x)) = some (-1) := by
  have hpos : (0 : ℝ) < (normSq v : ℝ) := by
    exact_mod_cast lt_of_le_of_ne (normSq_nonneg v) (Ne.symm hv)
  unfold cosineSimilarity
  rw [if_neg (by simp), normSq_neg, if_neg (by simp [hv]), dotProduct_neg_right]
  congr 1
  push_cast
  rw [Real.mul_self_sqrt hpos.le, neg_div, div_self hpos.ne']

/-! ## The semantic-search fallback on an empty scan -/

theorem semanticSearch_of_scan_empty (parseEmb : String → Option (List ℚ))
    (queryEmbedding : List ℚ) (limit offset : Nat) (types : Option (List String))
    (st : KBState) (h : semanticScan st = []) :
    semanticSearch parseEmb queryEmbedding limit offset types st = [] := by
  unfold semanticSearch
  rw [h]
  cases types with
  | none => simp [List.insertionSort]
  | some ts =>
    by_cases hts : ts ≠ []
    · simp [hts, List.insertionSort]
    · simp [hts, List.insertionSort]

/-! ## The `indexDirectory` fold -/

/-- One file of the `indexDirectory` loop: a success bumps `processed`, a
caught failure bumps `failed`; the run never aborts. -/
def indexDirStep (cfg : KBConfig) (fs : FileSystem) (co : Collaborators) (g : Bool)
    (acc : IndexingProgress × KBState) (f : String) : IndexingProgress × KBState :=
  match indexDocument cfg fs co g f acc.2 with
  | .ok x => ({ acc.1 with processed := acc.1.processed + 1 }, x.2)
  | .error _ => ({ acc.1 with failed := acc.1.failed + 1 }, acc.2)

/-- The `fileTypes` filter of `indexDirectory` (lines 1218-1222). -/
def typeFiltered (fileTypes : Option (List String)) (files : List String) : List String :=
  match fileTypes with
  | some ts =>
    if ts ≠ [] then files.filter (fun f => ts.contains (detectFileType f)) else files
  | none => files

/-- The `maxFiles` cap of `indexDirectory` (lines 1224-1226). -/
def capped (maxFiles : Option Nat) (files : List String) : List String :=
  match maxFiles with
  | some m => if 0 < m then files.take m else files
  | none => files

/-- What `indexDirectory` returns once the directory listing succeeded. -/
def indexDirRun (cfg : KBConfig) (fs : FileSystem) (co : Collaborators) (g : Bool)
    (fileTypes : Option (List String)) (maxFiles : Option Nat) (files : List String)
    (st : KBState) : IndexingProgress × KBState :=
  ({ ((capped maxFiles (typeFiltered fileTypes files)).foldl (indexDirStep cfg fs co g)
      ({ total := (capped maxFiles (typeFiltered fileTypes files)).length, processed := 0,
         failed := 0, status := "indexing", error := none }, st)).1 with
     status := "completed" },
   ((capped maxFiles (typeFiltered fileTypes files)).foldl (indexDirStep cfg fs co g)
      ({ total := (capped maxFiles (typeFiltered fileTypes files)).length, processed := 0,
         failed := 0, status := "indexing", error := none }, st)).2)

theorem indexDirectory_eq (cfg : KBConfig) (fs : FileSystem) (co : Collaborators)
    (g : Bool) (fileTypes : Option (List String)) (maxFiles : Option Nat)
    (dirPath : String) (st : KBState) (files : List String)
    (h : listDir fs dirPath = some files) :
    indexDirectory cfg fs co g fileTypes maxFiles dirPath st =
      .ok (indexDirRun cfg fs co g fileTypes maxFiles files st) := by
  unfold indexDirectory
  rw [h]
  rfl

/-- Through the directory fold, `processed + failed` grows by exactly one per
file and `total` never changes. -/
theorem indexDirStep_fold_counts (cfg : KBConfig) (fs : FileSystem) (co : Collaborators)
    (g : Bool) (files : List String) :
    ∀ acc : IndexingProgress × KBState,
      ((files.foldl (indexDirStep cfg fs co g) acc).1.processed +
          (files.foldl (indexDirStep cfg fs co g) acc).1.failed =
        acc.1.processed + acc.1.failed + files.length) ∧
      (files.foldl (indexDirStep cfg fs co g) acc).1.total = acc.1.total := by
  induction files with
  | nil => intro acc; exact ⟨by simp, rfl⟩
  | cons f rest ih =>
    intro acc
    rw [List.foldl_cons]
    obtain ⟨e1, e2⟩ := ih (indexDirStep cfg fs co g acc f)
    have hstep : ((indexDirStep cfg fs co g acc f).1.processed +
          (indexDirStep cfg fs co g acc f).1.failed = acc.1.processed + acc.1.failed + 1) ∧
        (indexDirStep cfg fs co g acc f).1.total = acc.1.total := by
      unfold indexDirStep
      cases indexDocument cfg fs co g f acc.2 with
      | ok x =>
        constructor
        · show acc.1.processed + 1 + acc.1.failed = acc.1.processed + acc.1.failed + 1
          omega
        · rfl
      | error e =>
        constructor
        · show acc.1.processed + (acc.1.failed + 1) = acc.1.processed + acc.1.failed + 1
          omega
        · rfl
    constructor
    · rw [e1, hstep.1, List.length_cons]
      omega
    · exact e2.trans hstep.2

/-! ## `getDocumentContent` on missing ids and on freshly indexed documents -/

theorem getDocumentContent_no_rows (st : KBState) (documentId : String)
    (h : ∀ r ∈ st.chunks, r.documentId ≠ documentId) :
    getDocumentContent st documentId = "" := by
  unfold getDocumentContent
  have hf : st.chunks.filter (fun r => r.documentId = documentId) = [] := by
    rw [List.filter_eq_nil_iff]
    intro r hr
    simpa using h r hr
  rw [hf]
  rfl

theorem pairwise_of_indexes_range {rows : List ChunkRow}
    (h : rows.map (fun r => r.indexNum) = List.range rows.length) :
    List.Sorted (fun a b => a.indexNum ≤ b.indexNum) rows := by
  have hp : (rows.map (fun r => r.indexNum)).Pairwise (fun a b => a ≤ b) := by
    rw [h]
    exact List.pairwise_le_range _
  exact List.pairwise_map.mp hp

/-! ## Fixtures for concrete runs -/

/-- A small filesystem: `/kb` holds one readable and one unreadable file. -/
def fsA : FileSystem :=
  { dirs := [("/kb", ["/kb/a.txt", "/kb/missing.txt"])],
    fileContents := [("/kb/a.txt", some "hello world"), ("/kb/missing.txt", none)] }

/-- Collaborators with no embeddings and a non-array concept response. -/
def coA : Collaborators :=
  { embed := fun _ => none, concepts := fun _ => ConceptResponse.notArray }

/-- Collaborators whose concept responses always fail to parse as JSON. -/
def coFail : Collaborators :=
  { embed := fun _ => none, concepts := fun _ => ConceptResponse.fail }

/-- Collaborators producing an embedding vector for every chunk. -/
def coEmb : Collaborators :=
  { embed := fun _ => some [(1 : ℚ), 0], concepts := fun _ => ConceptResponse.notArray }

/-- A one-document store for the delete fixtures. -/
def stW4 : KBState :=
  { documents := [{ id := "d1", title := "t", path := "/p", type := "text" }],
    chunks := [{ id := "c1", documentId := "d1", content := "x", indexNum := 0,
                 metadataJson := "m" }],
    ftsContent := [("d1", "x ")],
    concepts := [],
    relationships := [{ id := "r1", sourceId := "d1", sourceType := "DOCUMENT",
                        targetId := "k1", targetType := "CONCEPT",
                        relationshipType := "CONTAINS", weight := 1 }] }

def cA6 : ConceptIn := { name := "a", type := "T", description := none }

def cB6 : ConceptIn := { name := "b", type := "T", description := none }

def passes6 : List (String × List ConceptIn) := [("dd", [cA6, cB6])]

/-- The chunk and document tables as they stand before `extractConcepts` runs
inside `indexDocument`. -/
def preConceptState (cfg : KBConfig) (co : Collaborators) (g : Bool)
    (filePath content : String) (st : KBState) : KBState :=
  saveFold ((chunkDocument content (sha256 filePath) (basename filePath)
      (detectFileType filePath) cfg.chunkSize cfg.chunkOverlap).map (embedChunk g co))
    (saveDocumentMetadata (docRowOf filePath) st)

/-! ## The claims -/

/-- Claim C1 (amended).  `chunkDocument` with chunk size `S` (chars) and
overlap `O` (words): a text of length ≤ `S` yields exactly one chunk provided
some paragraph of it is non-blank — a whitespace-only text yields zero
chunks; consecutive chunks are chained by the overlap property, every chunk
after the first beginning with the last `O` words of its predecessor followed
by a space; and a text that is a single non-blank paragraph is emitted whole
as one chunk regardless of `S` (never split mid-paragraph) — so a text longer
than `S` need not produce two chunks.  Chunking is a pure function of
`(text, S, O)`, so identical inputs give identical boundaries. -/
theorem claim_C1 (content docId title dtype : String) (S O : Nat) :
    (content.length ≤ S → (∃ p ∈ splitParas content.data, blank p = false) →
      (chunkDocument content docId title dtype S O).length = 1) ∧
    (chunkDocument content docId title dtype S O).Chain'
      (fun a b => hasHead (overlapSeed O a) b.content.data) ∧
    (splitParas content.data = [content.data] → blank content.data = false →
      chunkDocument content docId title dtype S O =
        [mkChunk docId title dtype content.data 0]) :=
  ⟨fun h1 h2 => chunkDocument_single content docId title dtype S O h1 h2,
   chunkDocument_chain content docId title dtype S O,
   fun h1 h2 => chunkDocument_single_para content docId title dtype S O h1 h2⟩

theorem claim_C1_witness :
    (("ab" : String).length ≤ 5 ∧ (∃ p ∈ splitParas ("ab" : String).data, blank p = false) ∧
      splitParas ("ab" : String).data = [("ab" : String).data] ∧
      blank ("ab" : String).data = false) ∧
    ((chunkDocument "ab" "d" "t" "text" 5 2).length = 1 ∧
      (chunkDocument "ab" "d" "t" "text" 5 2).Chain'
        (fun a b => hasHead (overlapSeed 2 a) b.content.data) ∧
      chunkDocument "ab" "d" "t" "text" 5 2 =
        [mkChunk "d" "t" "text" ("ab" : String).data 0]) := by
  have h := claim_C1 "ab" "d" "t" "text" 5 2
  exact ⟨⟨by decide, by decide, by decide, by decide⟩,
    h.1 (by decide) (by decide), h.2.1, h.2.2 (by decide) (by decide)⟩

/-- Claim C1, counterexample to the frozen wording: the whitespace-only text
`" "` is non-empty with length ≤ 5 yet produces zero chunks (not exactly
one), and the single-paragraph text `"aaaaaaa"` has length 7 > 5 yet produces
one chunk (not at least two). -/
theorem claim_C1_cex :
    (" " : String) ≠ "" ∧ (" " : String).length ≤ 5 ∧
    (chunkDocument " " "d" "t" "text" 5 2).length = 0 ∧
    5 < ("aaaaaaa" : String).length ∧
    (chunkDocument "aaaaaaa" "d" "t" "text" 5 2).length = 1 := by
  decide

/-- Claim C2.  A successful `indexDocument` always returns `sha256 filePath`
as the document id — a deterministic function of the path alone — and
running it again on the resulting state with the same content returns the
same id and leaves the chunk-row count of every document unchanged: the
per-chunk upsert keys on the deterministic chunk ids, so re-indexing is
idempotent on the chunk table. -/
theorem claim_C2 (cfg : KBConfig) (fs : FileSystem) (co : Collaborators) (g : Bool)
    (filePath content : String) (st : KBState)
    (h : readFile fs filePath = some content) :
    ∃ st1 st2,
      indexDocument cfg fs co g filePath st = .ok (sha256 filePath, st1) ∧
      indexDocument cfg fs co g filePath st1 = .ok (sha256 filePath, st2) ∧
      ∀ d, chunkCount d st2 = chunkCount d st1 :=
  ⟨indexedState cfg co g filePath content st,
   indexedState cfg co g filePath content (indexedState cfg co g filePath content st),
   indexDocument_eq cfg fs co g filePath content st h,
   indexDocument_eq cfg fs co g filePath content (indexedState cfg co g filePath content st) h,
   fun d => reindex_count_stable cfg co g filePath content
     (indexedState cfg co g filePath content st)
     (indexedState_saved cfg co g filePath content st) d⟩

theorem claim_C2_witness :
    readFile fsA "/kb/a.txt" = some "hello world" ∧
    ∃ st1 st2,
      indexDocument {} fsA coA false "/kb/a.txt" emptyState =
        .ok (sha256 "/kb/a.txt", st1) ∧
      indexDocument {} fsA coA false "/kb/a.txt" st1 = .ok (sha256 "/kb/a.txt", st2) ∧
      ∀ d, chunkCount d st2 = chunkCount d st1 :=
  ⟨rfl, claim_C2 {} fsA coA false "/kb/a.txt" "hello world" emptyState rfl⟩

/-- Claim C3.  With the directory listed, `indexDirectory` (no type filter, no
cap) returns a progress snapshot with `status = "completed"`, `total` the
number of files, and `processed + failed = total`; one file's failure only
bumps `failed` by one and never aborts the fold; and the call errors exactly
when the root directory does not exist. -/
theorem claim_C3 (cfg : KBConfig) (fs : FileSystem) (co : Collaborators) (g : Bool)
    (dirPath : String) (st : KBState) (files : List String)
    (h : listDir fs dirPath = some files) :
    (∃ prog st', indexDirectory cfg fs co g none none dirPath st = .ok (prog, st') ∧
      prog.status = "completed" ∧ prog.total = files.length ∧
      prog.processed + prog.failed = files.length) ∧
    (∀ (acc : IndexingProgress × KBState) (f e : String),
      indexDocument cfg fs co g f acc.2 = .error e →
      indexDirStep cfg fs co g acc f = ({ acc.1 with failed := acc.1.failed + 1 }, acc.2)) ∧
    (∀ d', listDir fs d' = none →
      indexDirectory cfg fs co g none none d' st =
        .error ("KnowledgeBaseError: Directory " ++ d' ++ " does not exist")) := by
  refine ⟨?_, ?_, ?_⟩
  · rw [indexDirectory_eq cfg fs co g none none dirPath st files h]
    refine ⟨(indexDirRun cfg fs co g none none files st).1,
      (indexDirRun cfg fs co g none none files st).2, rfl, rfl, ?_, ?_⟩
    · exact (indexDirStep_fold_counts cfg fs co g files
        ({ total := files.length, processed := 0, failed := 0,
           status := "indexing", error := none }, st)).2
    · have hc : (files.foldl (indexDirStep cfg fs co g)
          ({ total := files.length, processed := 0, failed := 0,
             status := "indexing", error := none }, st)).1.processed +
          (files.foldl (indexDirStep cfg fs co g)
            ({ total := files.length, processed := 0, failed := 0,
               status := "indexing", error := none }, st)).1.failed =
          0 + 0 + files.length :=
        (indexDirStep_fold_counts cfg fs co g files
          ({ total := files.length, processed := 0, failed := 0,
             status := "indexing", error := none }, st)).1
      show (files.foldl (indexDirStep cfg fs co g)
          ({ total := files.length, processed := 0, failed := 0,
             status := "indexing", error := none }, st)).1.processed +
          (files.foldl (indexDirStep cfg fs co g)
            ({ total := files.length, processed := 0, failed := 0,
               status := "indexing", error := none }, st)).1.failed = files.length
      omega
  · intro acc f e hf
    unfold indexDirStep
    rw [hf]
  · intro d' hd
    unfold indexDirectory
    rw [hd]

theorem claim_C3_witness :
    listDir fsA "/kb" = some ["/kb/a.txt", "/kb/missing.txt"] ∧
    ∃ prog st', indexDirectory {} fsA coA false none none "/kb" emptyState =
        .ok (prog, st') ∧
      prog.status = "completed" ∧ prog.total = 2 ∧ prog.processed + prog.failed = 2 :=
  ⟨rfl, (claim_C3 {} fsA coA false "/kb" emptyState
    ["/kb/a.txt", "/kb/missing.txt"] rfl).1⟩

/-- Claim C4.  For a stored document id, `deleteDocument` — one transaction
that commits or rolls back as a unit — removes every chunk row of the
document and every relationship with `source_id = id` and
`source_type = 'DOCUMENT'` (the shape of every `CONTAINS` edge the service
mints), and returns `true`; a second call immediately after returns `false`;
and when the transaction fails, the error propagates with the store
unchanged. -/
theorem claim_C4 (documentId : String) (st : KBState)
    (hdoc : ∃ r ∈ st.documents, r.id = documentId) :
    (deleteDocument false documentId st).1 = .ok true ∧
    (∀ r ∈ (deleteDocument false documentId st).2.chunks, r.documentId ≠ documentId) ∧
    (∀ r ∈ (deleteDocument false documentId st).2.relationships,
      ¬(r.sourceId = documentId ∧ r.sourceType = "DOCUMENT")) ∧
    (deleteDocument false documentId ((deleteDocument false documentId st).2)).1 =
      .ok false ∧
    (deleteDocument true documentId st).1 = .error "DatabaseError" ∧
    (deleteDocument true documentId st).2 = st := by
  obtain ⟨r0, hr0, hid0⟩ := hdoc
  refine ⟨?_, ?_, ?_, ?_, rfl, rfl⟩
  · show Except.ok (decide (0 < (st.documents.filter
        (fun r => r.id = documentId)).length)) = .ok true
    have hmem : r0 ∈ st.documents.filter (fun r => r.id = documentId) :=
      List.mem_filter.mpr ⟨hr0, decide_eq_true hid0⟩
    rw [decide_eq_true (List.length_pos_of_mem hmem)]
  · intro r hr
    have hr' : r ∈ st.chunks.filter (fun r => r.documentId ≠ documentId) := hr
    exact of_decide_eq_true (List.mem_filter.mp hr').2
  · intro r hr
    have hr' : r ∈ st.relationships.filter
        (fun r => ¬(r.sourceId = documentId ∧ r.sourceType = "DOCUMENT")) := hr
    exact of_decide_eq_true (List.mem_filter.mp hr').2
  · show Except.ok (decide (0 < (((st.documents.filter (fun r => r.id ≠ documentId)).filter
        (fun r => r.id = documentId))).length)) = .ok false
    have hnil : (st.documents.filter (fun r => r.id ≠ documentId)).filter
        (fun r => r.id = documentId) = [] := by
      rw [List.filter_eq_nil_iff]
      intro r hr
      have h1 : r.id ≠ documentId := of_decide_eq_true (List.mem_filter.mp hr).2
      simp [h1]
    rw [hnil]
    rfl

theorem claim_C4_witness :
    (∃ r ∈ stW4.documents, r.id = "d1") ∧
    ((deleteDocument false "d1" stW4).1 = .ok true ∧
      (∀ r ∈ (deleteDocument false "d1" stW4).2.chunks, r.documentId ≠ "d1") ∧
      (∀ r ∈ (deleteDocument false "d1" stW4).2.relationships,
        ¬(r.sourceId = "d1" ∧ r.sourceType = "DOCUMENT")) ∧
      (deleteDocument false "d1" ((deleteDocument false "d1" stW4).2)).1 = .ok false ∧
      (deleteDocument true "d1" stW4).1 = .error "DatabaseError" ∧
      (deleteDocument true "d1" stW4).2 = stW4) :=
  ⟨by decide, claim_C4 "d1" stW4 (by decide)⟩

/-- Claim C5 (refuting the spec).  The in-process semantic-search fallback
filters chunk rows with `metadata LIKE '%"embedding":%'` — but
`saveDocumentChunk` persists only `JSON.stringify({title, type})` and never
the embedding, so even a document indexed with `generateEmbeddings` enabled
(the collaborator returning a vector for every chunk) leaves a store where
the scan is empty and `semanticSearch` returns no results for any query,
limit, offset, type filter or metadata parser. -/
theorem claim_C5 (parseEmb : String → Option (List ℚ)) (q : List ℚ) (lim off : Nat)
    (types : Option (List String)) :
    ∃ st1, indexDocument {} fsA coEmb true "/kb/a.txt" emptyState =
        .ok (sha256 "/kb/a.txt", st1) ∧
      st1.chunks ≠ [] ∧ semanticScan st1 = [] ∧
      semanticSearch parseEmb q lim off types st1 = [] := by
  refine ⟨indexedState {} coEmb true "/kb/a.txt" "hello world" emptyState,
    indexDocument_eq {} fsA coEmb true "/kb/a.txt" "hello world" emptyState rfl,
    by decide, by decide, ?_⟩
  exact semanticSearch_of_scan_empty parseEmb q lim off types _ (by decide)

/-- Claim C6 (amended).  Along every sequence of extraction passes from a
state satisfying the graph invariant (e.g. the empty store), the invariant is
preserved and every concept frequency and relationship weight is
monotonically non-decreasing under its id.  Per pass: an existing concept's
frequency is bumped by 1, a new one is inserted at 1, and the
document-to-concept `CONTAINS` edge is upserted with weight = the updated
frequency; for every *ordered* pair `(i, j)` with `i < j` in the pass, the
`RELATED` edge keyed by the order-dependent id
`SHA256(id_i + '_' + id_j + '_RELATED')` is bumped by 0.5 if that exact key
exists, else inserted at weight 1.0 — the same unordered pair seen in the
opposite order creates a second edge instead of incrementing the first.
Metadata and chunk saves touch neither table. -/
theorem claim_C6 (passes : List (String × List ConceptIn)) (st : KBState)
    (hids : ∀ q ∈ passes, noUnd q.1) (hinv : GraphInv st) :
    (GraphInv (passes.foldl (fun s q => conceptPass q.2 q.1 s) st) ∧
      (∀ cr ∈ st.concepts,
        ∃ cr' ∈ (passes.foldl (fun s q => conceptPass q.2 q.1 s) st).concepts,
          cr'.id = cr.id ∧ cr.frequency ≤ cr'.frequency) ∧
      (∀ r ∈ st.relationships,
        ∃ r' ∈ (passes.foldl (fun s q => conceptPass q.2 q.1 s) st).relationships,
          r'.id = r.id ∧ r.weight ≤ r'.weight)) ∧
    (∀ (d0 : String) (st0 : KBState) (c : ConceptIn) (ex : ConceptRow),
      ¬(c.name = "" ∨ c.type = "") →
      st0.concepts.find? (fun r => r.id = conceptIdOf c.name) = some ex →
      (∃ cr ∈ (conceptStep d0 st0 c).concepts,
        cr.id = conceptIdOf c.name ∧ cr.frequency = ex.frequency + 1) ∧
      containsRow d0 (conceptIdOf c.name) (jsToUpper c.type) (ex.frequency + 1) ∈
        (conceptStep d0 st0 c).relationships) ∧
    (∀ (d0 : String) (st0 : KBState) (c : ConceptIn),
      ¬(c.name = "" ∨ c.type = "") →
      st0.concepts.find? (fun r => r.id = conceptIdOf c.name) = none →
      freshConcept c ∈ (conceptStep d0 st0 c).concepts ∧
      containsRow d0 (conceptIdOf c.name) (jsToUpper c.type) 1 ∈
        (conceptStep d0 st0 c).relationships) ∧
    (∀ (st0 : KBState) (p : ConceptIn × ConceptIn), ¬(p.1.name = "" ∨ p.2.name = "") →
      (st0.relationships.any (fun r => r.id =
          relatedRelId (conceptIdOf p.1.name) (conceptIdOf p.2.name)) = true →
        ∀ r ∈ st0.relationships,
          r.id = relatedRelId (conceptIdOf p.1.name) (conceptIdOf p.2.name) →
          ({ r with weight := r.weight + 1/2 } : RelRow) ∈ (pairStep st0 p).relationships) ∧
      (st0.relationships.any (fun r => r.id =
          relatedRelId (conceptIdOf p.1.name) (conceptIdOf p.2.name)) = false →
        relatedRow p ∈ (pairStep st0 p).relationships)) ∧
    (∀ (row : DocRow) (c0 : DocumentChunk) (st0 : KBState),
      (saveDocumentMetadata row st0).concepts = st0.concepts ∧
      (saveDocumentMetadata row st0).relationships = st0.relationships ∧
      (saveDocumentChunk c0 st0).concepts = st0.concepts ∧
      (saveDocumentChunk c0 st0).relationships = st0.relationships) := by
  obtain ⟨hg, hle⟩ := passesFold_mono passes st hids hinv
  refine ⟨⟨hg, hle.1, hle.2⟩, ?_, ?_, ?_, ?_⟩
  · intro d0 st0 c ex hne hfind
    unfold conceptStep
    rw [if_neg hne]
    simp only [hfind]
    have hexmem : ex ∈ st0.concepts := List.mem_of_find?_eq_some hfind
    have hexid : ex.id = conceptIdOf c.name := by
      have hp := List.find?_some hfind
      exact of_decide_eq_true hp
    constructor
    · refine ⟨{ ex with frequency := ex.frequency + 1 }, ?_, hexid, rfl⟩
      have hmem : (if ex.id = conceptIdOf c.name
            then ({ ex with frequency := ex.frequency + 1 } : ConceptRow) else ex) ∈
          st0.concepts.map (fun r => if r.id = conceptIdOf c.name
            then { r with frequency := r.frequency + 1 } else r) :=
        List.mem_map_of_mem _ hexmem
      rwa [if_pos hexid] at hmem
    · exact insertOrReplaceRel_mem_self _ _
  · intro d0 st0 c hne hfind
    unfold conceptStep
    rw [if_neg hne]
    simp only [hfind]
    exact ⟨List.mem_append_right _ (List.mem_singleton.mpr rfl),
      insertOrReplaceRel_mem_self _ _⟩
  · intro st0 p hne
    constructor
    · intro hany r hr hid
      unfold pairStep
      rw [if_neg hne, if_pos hany]
      have hmem : (if r.id = relatedRelId (conceptIdOf p.1.name) (conceptIdOf p.2.name)
            then ({ r with weight := r.weight + 1/2 } : RelRow) else r) ∈
          st0.relationships.map
            (fun r => if r.id = relatedRelId (conceptIdOf p.1.name) (conceptIdOf p.2.name)
              then { r with weight := r.weight + 1/2 } else r) :=
        List.mem_map_of_mem _ hr
      rwa [if_pos hid] at hmem
    · intro hany
      unfold pairStep
      rw [if_neg hne, if_neg (by simp [hany])]
      exact List.mem_append_right _ (List.mem_singleton.mpr rfl)
  · intro row c0 st0
    exact ⟨(saveDocumentMetadata_frame row st0).2.1, (saveDocumentMetadata_frame row st0).2.2,
      (saveDocumentChunk_frame c0 st0).2.1, (saveDocumentChunk_frame c0 st0).2.2⟩

theorem claim_C6_witness :
    (∀ q ∈ passes6, noUnd q.1) ∧ GraphInv emptyState ∧
    GraphInv (passes6.foldl (fun s q => conceptPass q.2 q.1 s) emptyState) ∧
    (∀ cr ∈ emptyState.concepts,
      ∃ cr' ∈ (passes6.foldl (fun s q => conceptPass q.2 q.1 s) emptyState).concepts,
        cr'.id = cr.id ∧ cr.frequency ≤ cr'.frequency) :=
  ⟨by decide, GraphInv_empty,
   (claim_C6 passes6 emptyState (by decide) GraphInv_empty).1.1,
   (claim_C6 passes6 emptyState (by decide) GraphInv_empty).1.2.1⟩

/-- Claim C6, counterexample to the "unordered pair" upsert: extracting the
concepts `[a, b]` and then `[b, a]` for the same document leaves two
`RELATED` rows of weight 1 — one per direction — for the one unordered pair
`{a, b}`, instead of one row incremented to 1.5: the edge key
`SHA256(c1 + '_' + c2 + '_RELATED')` depends on the order of the pair. -/
theorem claim_C6_cex :
    ((conceptPass [cB6, cA6] "dd" (conceptPass [cA6, cB6] "dd" emptyState)).relationships.filter
        (fun r => r.relationshipType = "RELATED")).map
      (fun r => (r.sourceId, r.targetId, r.weight)) =
      [(conceptIdOf "a", conceptIdOf "b", (1 : ℚ)),
       (conceptIdOf "b", conceptIdOf "a", (1 : ℚ))] := by
  decide

/-- Claim C7.  A slice whose concept response fails to parse mutates nothing:
the loop returns the state reached before that slice, so earlier slices'
graph rows stay and the failing slice contributes none.  Whatever the
collaborator answers, `indexDocument` still succeeds with the document id,
and the documents, chunk and FTS tables end exactly as the metadata and chunk
saves left them — committed and searchable. -/
theorem claim_C7 (cfg : KBConfig) (fs : FileSystem) (co : Collaborators) (g : Bool)
    (filePath content : String) (st : KBState)
    (h : readFile fs filePath = some content) :
    (∀ (st0 : KBState) (s : String) (rest : List String),
      co.concepts s = ConceptResponse.fail →
      conceptLoop co.concepts (sha256 filePath) (s :: rest) st0 = st0) ∧
    ∃ st1, indexDocument cfg fs co g filePath st = .ok (sha256 filePath, st1) ∧
      st1.documents = (preConceptState cfg co g filePath content st).documents ∧
      st1.chunks = (preConceptState cfg co g filePath content st).chunks ∧
      st1.ftsContent = (preConceptState cfg co g filePath content st).ftsContent := by
  constructor
  · intro st0 s rest hfail
    simp [conceptLoop, processConceptsChunk, hfail]
  · exact ⟨indexedState cfg co g filePath content st,
      indexDocument_eq cfg fs co g filePath content st h,
      (extractConcepts_frame co.concepts content (sha256 filePath) _).1,
      (extractConcepts_frame co.concepts content (sha256 filePath) _).2.1,
      (extractConcepts_frame co.concepts content (sha256 filePath) _).2.2⟩

theorem claim_C7_witness :
    readFile fsA "/kb/a.txt" = some "hello world" ∧
    coFail.concepts "x" = ConceptResponse.fail ∧
    conceptLoop coFail.concepts (sha256 "/kb/a.txt") ["x"] emptyState = emptyState ∧
    ∃ st1, indexDocument {} fsA coFail false "/kb/a.txt" emptyState =
        .ok (sha256 "/kb/a.txt", st1) ∧
      st1.documents =
        (preConceptState {} coFail false "/kb/a.txt" "hello world" emptyState).documents ∧
      st1.chunks =
        (preConceptState {} coFail false "/kb/a.txt" "hello world" emptyState).chunks ∧
      st1.ftsContent =
        (preConceptState {} coFail false "/kb/a.txt" "hello world" emptyState).ftsContent := by
  have h := claim_C7 ({} : KBConfig) fsA coFail false "/kb/a.txt" "hello world" emptyState rfl
  exact ⟨rfl, rfl, h.1 emptyState "x" [] rfl, h.2⟩

/-- Claim C8 (amended).  Each chunk save does append the chunk's content plus
a space to the document's FTS content column — but `saveDocumentMetadata`,
run at the start of every `indexDocument`, deletes and re-inserts the FTS row
with an empty content column.  So after any successful index pass, whatever
the prior state held, the column equals exactly that pass's chunk contents
concatenated once: indexed text does NOT accumulate across re-indexes. -/
theorem claim_C8 (cfg : KBConfig) (fs : FileSystem) (co : Collaborators) (g : Bool)
    (filePath content : String) (st : KBState)
    (h : readFile fs filePath = some content) :
    ∃ st1, indexDocument cfg fs co g filePath st = .ok (sha256 filePath, st1) ∧
      ftsLookup (sha256 filePath) st1.ftsContent =
        some (String.join ((chunkDocument content (sha256 filePath) (basename filePath)
          (detectFileType filePath) cfg.chunkSize cfg.chunkOverlap).map
            (fun c => c.content ++ " "))) := by
  refine ⟨indexedState cfg co g filePath content st,
    indexDocument_eq cfg fs co g filePath content st h, ?_⟩
  have hset : ftsLookup (sha256 filePath)
      (saveDocumentMetadata (docRowOf filePath) st).ftsContent = some "" := by
    show ftsLookup (sha256 filePath) (ftsSet (sha256 filePath) "" st.ftsContent) = some ""
    exact ftsSet_lookup_self _ _ _
  have hdoc : ∀ c ∈ (chunkDocument content (sha256 filePath) (basename filePath)
      (detectFileType filePath) cfg.chunkSize cfg.chunkOverlap).map (embedChunk g co),
      c.documentId = sha256 filePath := by
    intro c hc
    rw [List.mem_map] at hc
    obtain ⟨c0, hc0, rfl⟩ := hc
    rw [(embedChunk_fields g co c0).2.1]
    exact ((chunkDocument_meta content (sha256 filePath) (basename filePath)
      (detectFileType filePath) cfg.chunkSize cfg.chunkOverlap).2 c0 hc0).2.1
  have hfold := saveFold_fts (sha256 filePath)
    ((chunkDocument content (sha256 filePath) (basename filePath)
      (detectFileType filePath) cfg.chunkSize cfg.chunkOverlap).map (embedChunk g co))
    (saveDocumentMetadata (docRowOf filePath) st) "" hdoc hset
  have hmap : ((chunkDocument content (sha256 filePath) (basename filePath)
      (detectFileType filePath) cfg.chunkSize cfg.chunkOverlap).map (embedChunk g co)).map
        (fun c => c.content ++ " ") =
      (chunkDocument content (sha256 filePath) (basename filePath)
        (detectFileType filePath) cfg.chunkSize cfg.chunkOverlap).map
        (fun c => c.content ++ " ") := by
    rw [List.map_map]
    refine List.map_congr_left ?_
    intro c0 _
    show (embedChunk g co c0).content ++ " " = c0.content ++ " "
    rw [(embedChunk_fields g co c0).2.2.1]
  rw [show (indexedState cfg co g filePath content st).ftsContent =
      (saveFold ((chunkDocument content (sha256 filePath) (basename filePath)
        (detectFileType filePath) cfg.chunkSize cfg.chunkOverlap).map (embedChunk g co))
        (saveDocumentMetadata (docRowOf filePath) st)).ftsContent from
    (extractConcepts_frame co.concepts content (sha256 filePath) _).2.2]
  rw [hfold, hmap]
  exact congrArg some (String.ext (by simp))

theorem claim_C8_witness :
    readFile fsA "/kb/a.txt" = some "hello world" ∧
    ∃ st1, indexDocument {} fsA coA false "/kb/a.txt" emptyState =
        .ok (sha256 "/kb/a.txt", st1) ∧
      ftsLookup (sha256 "/kb/a.txt") st1.ftsContent =
        some (String.join ((chunkDocument "hello world" (sha256 "/kb/a.txt")
          (basename "/kb/a.txt") (detectFileType "/kb/a.txt") ({} : KBConfig).chunkSize
          ({} : KBConfig).chunkOverlap).map (fun c => c.content ++ " "))) :=
  ⟨rfl, claim_C8 {} fsA coA false "/kb/a.txt" "hello world" emptyState rfl⟩

/-- Claim C8, counterexample to the frozen wording: indexing `/kb/a.txt`
(content `"hello world"`, one chunk) twice leaves the FTS content column at
`"hello world "` after each pass — not the doubled accumulation
`"hello world hello world "` the claim predicts. -/
theorem claim_C8_cex :
    ∃ st1 st2,
      indexDocument {} fsA coA false "/kb/a.txt" emptyState =
        .ok (sha256 "/kb/a.txt", st1) ∧
      indexDocument {} fsA coA false "/kb/a.txt" st1 = .ok (sha256 "/kb/a.txt", st2) ∧
      ftsLookup (sha256 "/kb/a.txt") st1.ftsContent = some "hello world " ∧
      ftsLookup (sha256 "/kb/a.txt") st2.ftsContent = some "hello world " ∧
      some ("hello world " : String) ≠ some ("hello world " ++ "hello world ") :=
  ⟨indexedState {} coA false "/kb/a.txt" "hello world" emptyState,
   indexedState {} coA false "/kb/a.txt" "hello world"
     (indexedState {} coA false "/kb/a.txt" "hello world" emptyState),
   indexDocument_eq {} fsA coA false "/kb/a.txt" "hello world" emptyState rfl,
   indexDocument_eq {} fsA coA false "/kb/a.txt" "hello world"
     (indexedState {} coA false "/kb/a.txt" "hello world" emptyState) rfl,
   by decide, by decide, by decide⟩

/-- Claim C9.  Over exact rationals: for equal-length vectors,
`cosineSimilarity` returns 0 whenever either vector is all zeros (the
zero-norm guard); and for every vector with a non-zero entry,
`cosineSimilarity v v = 1` and `cosineSimilarity v (-v) = -1` exactly. -/
theorem claim_C9 (v w : List ℚ) :
    (v.length = w.length → ((∀ x ∈ v, x = 0) ∨ (∀ x ∈ w, x = 0)) →
      cosineSimilarity v w = some 0) ∧
    ((∃ x ∈ v, x ≠ 0) →
      cosineSimilarity v v = some 1 ∧
      cosineSimilarity v (v.map (fun x => -x)) = some (-1)) := by
  constructor
  · intro hlen hzero
    have hcond : normSq v = 0 ∨ normSq w = 0 := by
      rcases hzero with hz | hz
      · exact Or.inl ((normSq_eq_zero_iff v).mpr hz)
      · exact Or.inr ((normSq_eq_zero_iff w).mpr hz)
    unfold cosineSimilarity
    rw [if_neg (by simp [hlen]), if_pos hcond]
  · intro hnz
    have hv : normSq v ≠ 0 := by
      intro h0
      obtain ⟨x, hx, hxne⟩ := hnz
      exact hxne ((normSq_eq_zero_iff v).mp h0 x hx)
    exact ⟨cosineSimilarity_self v hv, cosineSimilarity_neg v hv⟩

theorem claim_C9_witness :
    ([(1 : ℚ)].length = [(0 : ℚ)].length) ∧ (∀ x ∈ [(0 : ℚ)], x = 0) ∧
    (∃ x ∈ [(1 : ℚ)], x ≠ 0) ∧
    cosineSimilarity [(1 : ℚ)] [(0 : ℚ)] = some 0 ∧
    cosineSimilarity [(1 : ℚ)] [(1 : ℚ)] = some 1 ∧
    cosineSimilarity [(1 : ℚ)] ([(1 : ℚ)].map (fun x => -x)) = some (-1) := by
  have h := claim_C9 [(1 : ℚ)] [(0 : ℚ)]
  have hz : ∀ x ∈ [(0 : ℚ)], x = 0 := by
    intro x hx
    rw [List.mem_singleton] at hx
    exact hx
  have hnz : ∃ x ∈ [(1 : ℚ)], x ≠ 0 := ⟨1, List.mem_singleton.mpr rfl, one_ne_zero⟩
  exact ⟨rfl, hz, hnz, h.1 rfl (Or.inr hz), (h.2 hnz).1, (h.2 hnz).2⟩

/-- Claim C10.  `getDocumentContent` returns the empty string for any id with
no chunk rows (in particular an id absent from the store) rather than
failing; and for a freshly indexed document (no prior rows of that document
or with its chunk ids) it returns the chunk contents joined by a blank line
in chunk-index order. -/
theorem claim_C10 (st : KBState) (d : String) (cfg : KBConfig) (fs : FileSystem)
    (co : Collaborators) (g : Bool) (filePath content : String) (st0 : KBState)
    (hnone : ∀ r ∈ st.chunks, r.documentId ≠ d)
    (hread : readFile fs filePath = some content)
    (hfresh : ∀ r ∈ st0.chunks, r.documentId ≠ sha256 filePath ∧
      ∀ c ∈ chunkDocument content (sha256 filePath) (basename filePath)
        (detectFileType filePath) cfg.chunkSize cfg.chunkOverlap, r.id ≠ c.id) :
    getDocumentContent st d = "" ∧
    ∃ st1, indexDocument cfg fs co g filePath st0 = .ok (sha256 filePath, st1) ∧
      getDocumentContent st1 (sha256 filePath) =
        String.intercalate "\n\n" ((chunkDocument content (sha256 filePath)
          (basename filePath) (detectFileType filePath) cfg.chunkSize
          cfg.chunkOverlap).map (fun c => c.content)) := by
  obtain ⟨hmeta_idx, hmeta_mem⟩ := chunkDocument_meta content (sha256 filePath)
    (basename filePath) (detectFileType filePath) cfg.chunkSize cfg.chunkOverlap
  refine ⟨getDocumentContent_no_rows st d hnone, indexedState cfg co g filePath content st0,
    indexDocument_eq cfg fs co g filePath content st0 hread, ?_⟩
  have hfresh' : ∀ c ∈ (chunkDocument content (sha256 filePath) (basename filePath)
      (detectFileType filePath) cfg.chunkSize cfg.chunkOverlap).map (embedChunk g co),
      ∀ r ∈ (saveDocumentMetadata (docRowOf filePath) st0).chunks, r.id ≠ c.id := by
    intro c hc r hr
    rw [List.mem_map] at hc
    obtain ⟨c0, hc0, rfl⟩ := hc
    rw [(embedChunk_fields g co c0).1]
    exact (hfresh r hr).2 c0 hc0
  have hchunks1 : (indexedState cfg co g filePath content st0).chunks =
      st0.chunks ++ ((chunkDocument content (sha256 filePath) (basename filePath)
        (detectFileType filePath) cfg.chunkSize cfg.chunkOverlap).map
          (embedChunk g co)).map chunkRowOf := by
    rw [show (indexedState cfg co g filePath content st0).chunks =
        (saveFold ((chunkDocument content (sha256 filePath) (basename filePath)
          (detectFileType filePath) cfg.chunkSize cfg.chunkOverlap).map (embedChunk g co))
          (saveDocumentMetadata (docRowOf filePath) st0)).chunks from
      (extractConcepts_frame co.concepts content (sha256 filePath) _).2.1]
    rw [saveFold_append _ _ hfresh' (mapped_ids_nodup g co content (sha256 filePath)
      (basename filePath) (detectFileType filePath) cfg.chunkSize cfg.chunkOverlap)]
    rfl
  have hfilter : ((st0.chunks ++ ((chunkDocument content (sha256 filePath)
      (basename filePath) (detectFileType filePath) cfg.chunkSize
      cfg.chunkOverlap).map (embedChunk g co)).map chunkRowOf).filter
        (fun r => r.documentId = sha256 filePath)) =
      ((chunkDocument content (sha256 filePath) (basename filePath)
        (detectFileType filePath) cfg.chunkSize cfg.chunkOverlap).map
          (embedChunk g co)).map chunkRowOf := by
    rw [List.filter_append]
    rw [show st0.chunks.filter (fun r => r.documentId = sha256 filePath) = [] from
      List.filter_eq_nil_iff.mpr (fun r hr => by simp [(hfresh r hr).1])]
    rw [List.filter_eq_self.mpr ?_, List.nil_append]
    intro r hr
    rw [List.mem_map] at hr
    obtain ⟨c, hc, rfl⟩ := hr
    rw [List.mem_map] at hc
    obtain ⟨c0, hc0, rfl⟩ := hc
    refine decide_eq_true ?_
    show (embedChunk g co c0).documentId = sha256 filePath
    rw [(embedChunk_fields g co c0).2.1]
    exact (hmeta_mem c0 hc0).2.1
  have hidx : (((chunkDocument content (sha256 filePath) (basename filePath)
      (detectFileType filePath) cfg.chunkSize cfg.chunkOverlap).map
        (embedChunk g co)).map chunkRowOf).map (fun r => r.indexNum) =
      List.range ((((chunkDocument content (sha256 filePath) (basename filePath)
        (detectFileType filePath) cfg.chunkSize cfg.chunkOverlap).map
          (embedChunk g co)).map chunkRowOf).length) := by
    have h1 : (((chunkDocument content (sha256 filePath) (basename filePath)
        (detectFileType filePath) cfg.chunkSize cfg.chunkOverlap).map
          (embedChunk g co)).map chunkRowOf).map (fun r => r.indexNum) =
        (chunkDocument content (sha256 filePath) (basename filePath)
          (detectFileType filePath) cfg.chunkSize cfg.chunkOverlap).map
          (fun c => c.index) := by
      rw [List.map_map, List.map_map]
      refine List.map_congr_left ?_
      intro c0 _
      show (embedChunk g co c0).index = c0.index
      rw [(embedChunk_fields g co c0).2.2.2.1]
    have h2 : ((((chunkDocument content (sha256 filePath) (basename filePath)
        (detectFileType filePath) cfg.chunkSize cfg.chunkOverlap).map
          (embedChunk g co)).map chunkRowOf).length) =
        (chunkDocument content (sha256 filePath) (basename filePath)
          (detectFileType filePath) cfg.chunkSize cfg.chunkOverlap).length := by
      rw [List.length_map, List.length_map]
    rw [h1, h2]
    exact hmeta_idx
  have hsorted := pairwise_of_indexes_range hidx
  have hcont : ((((chunkDocument content (sha256 filePath) (basename filePath)
      (detectFileType filePath) cfg.chunkSize cfg.chunkOverlap).map
        (embedChunk g co)).map chunkRowOf).map (fun r => r.content)) =
      (chunkDocument content (sha256 filePath) (basename filePath)
        (detectFileType filePath) cfg.chunkSize cfg.chunkOverlap).map
        (fun c => c.content) := by
    rw [List.map_map, List.map_map]
    refine List.map_congr_left ?_
    intro c0 _
    show (embedChunk g co c0).content = c0.content
    rw [(embedChunk_fields g co c0).2.2.1]
  unfold getDocumentContent
  rw [hchunks1, hfilter, List.Sorted.insertionSort_eq hsorted, hcont]

theorem claim_C10_witness :
    (∀ r ∈ emptyState.chunks, r.documentId ≠ "nodoc") ∧
    readFile fsA "/kb/a.txt" = some "hello world" ∧
    (∀ r ∈ emptyState.chunks, r.documentId ≠ sha256 "/kb/a.txt" ∧
      ∀ c ∈ chunkDocument "hello world" (sha256 "/kb/a.txt") (basename "/kb/a.txt")
        (detectFileType "/kb/a.txt") ({} : KBConfig).chunkSize ({} : KBConfig).chunkOverlap,
        r.id ≠ c.id) ∧
    getDocumentContent emptyState "nodoc" = "" ∧
    ∃ st1, indexDocument {} fsA coA false "/kb/a.txt" emptyState =
        .ok (sha256 "/kb/a.txt", st1) ∧
      getDocumentContent st1 (sha256 "/kb/a.txt") =
        String.intercalate "\n\n" ((chunkDocument "hello world" (sha256 "/kb/a.txt")
          (basename "/kb/a.txt") (detectFileType "/kb/a.txt") ({} : KBConfig).chunkSize
          ({} : KBConfig).chunkOverlap).map (fun c => c.content)) := by
  have h := claim_C10 emptyState "nodoc" {} fsA coA false "/kb/a.txt" "hello world"
    emptyState (by decide) rfl (by decide)
  exact ⟨by decide, rfl, by decide, h.1, h.2⟩

end FactoryKB
